import Mathlib

/-!
Verification development for the prefix-code engine of the `codinglab` library:
the prefix code tree (`codinglab/encoders/prefix_code_tree.py`), the shared
encoder/decoder base (`codinglab/encoders/prefix_coder.py`), the Huffman n-gram
coder (`codinglab/encoders/huffman_ngram.py`) and the Shannon-Fano-Elias coder
(`codinglab/encoders/shannon_fano_elias.py`).

Python dictionaries are modelled as association lists with insertion-order
semantics (`aupd` is `d[k] = v`: it overwrites in place or appends at the end;
`fromList` builds a dict from a list of assignments).  Python floats are
modelled as exact rationals.  Exceptions are modelled with `Except`/`Option`
or an explicit success flag, and the two `while` loops of the decoders are
modelled with an explicit fuel argument that is large enough whenever the
Python loop terminates (`none`/fuel exhaustion corresponds to divergence).
-/

set_option maxHeartbeats 1000000
set_option linter.unusedSectionVars false

namespace CodingLab

/-- Python dict lookup `d.get(k)` on an association list (first binding wins;
`aupd` keeps at most one binding per key). -/
def alookup {κ ν : Type} [DecidableEq κ] (k : κ) : List (κ × ν) → Option ν
  | [] => none
  | (k', v) :: rest => if k' = k then some v else alookup k rest

/-- Python dict assignment `d[k] = v`: overwrite the binding in place if the
key is present, otherwise append the new binding at the end (dicts preserve
insertion order). -/
def aupd {κ ν : Type} [DecidableEq κ] (k : κ) (v : ν) : List (κ × ν) → List (κ × ν)
  | [] => [(k, v)]
  | (k', v') :: rest => if k' = k then (k, v) :: rest else (k', v') :: aupd k v rest

/-- Build a Python dict by a sequence of assignments `d[k] = v`, left to right. -/
def fromList {κ ν : Type} [DecidableEq κ] (l : List (κ × ν)) : List (κ × ν) :=
  l.foldl (fun acc p => aupd p.1 p.2 acc) []

/-- The keys of an association list. -/
def akeys {κ ν : Type} (l : List (κ × ν)) : List κ := l.map Prod.fst

/-- `TreeNode` from `prefix_code_tree.py`: `value` is the source symbol at the
node (`None` for internal nodes), `children` maps channel symbols to child
nodes.  Edge labels have type `β` (channel chars), values type `α` (source
chars). -/
inductive TreeNode (β α : Type) : Type where
  | mk (value : Option α) (children : List (β × TreeNode β α)) : TreeNode β α

/-- The `value` attribute of a node. -/
def TreeNode.value {β α : Type} : TreeNode β α → Option α
  | .mk v _ => v

/-- The `children` attribute of a node. -/
def TreeNode.children {β α : Type} : TreeNode β α → List (β × TreeNode β α)
  | .mk _ c => c

/-- `TreeNode.leaf()`: true iff the node has no children. -/
def TreeNode.leaf {β α : Type} (t : TreeNode β α) : Bool := t.children.isEmpty

/-- A fresh node `TreeNode()`: no value, no children.  Also the root of a fresh
`PrefixCodeTree()`. -/
def freshNode {β α : Type} : TreeNode β α := .mk none []

section Tree

variable {β α : Type} [DecidableEq β]

/-- `PrefixCodeTree.insert_code(code, symbol)`.  Returns the tree after the
call together with a success flag: `false` means the Python code raised the
prefix-conflict `ValueError`.  The traversal follows the source: for each
char, a missing child is created fresh, then the walk moves into the child
and raises if that child carries a value; after the loop it raises if the
landing node has children, and otherwise sets the landing node's value. -/
def insertCode : TreeNode β α → List β → α → TreeNode β α × Bool
  | .mk v ch, [], s =>
    if ch.isEmpty then (.mk (some s) ch, true) else (.mk v ch, false)
  | .mk v ch, b :: r, s =>
    match alookup b ch with
    | some child =>
      if child.value.isSome then (.mk v ch, false)
      else
        let res := insertCode child r s
        (.mk v (aupd b res.1 ch), res.2)
    | none =>
      let res := insertCode (freshNode : TreeNode β α) r s
      (.mk v (aupd b res.1 ch), res.2)

/-- Fuel-indexed body of `PrefixCodeTree.decode(sequence, position)`: walk from
`t` consuming `seq[pos], seq[pos+1], ...` until a leaf is reached; error when
the sequence is exhausted or a symbol has no child edge.  The fuel never runs
out when called through `treeDecode`. -/
def decodeFrom : Nat → TreeNode β α → List β → Nat → Except Unit (Option α × Nat)
  | 0, _, _, _ => .error ()
  | fuel + 1, t, seq, pos =>
    if t.children.isEmpty then .ok (t.value, pos)
    else
      match seq[pos]? with
      | none => .error ()
      | some b =>
        match alookup b t.children with
        | none => .error ()
        | some child => decodeFrom fuel child seq (pos + 1)

/-- `PrefixCodeTree.decode(sequence, position)`.  The while loop advances
`position` by one on every iteration and raises once `position` reaches the
end of the sequence, so `seq.length - pos + 1` units of fuel are never
exhausted. -/
def treeDecode (t : TreeNode β α) (seq : List β) (pos : Nat) : Except Unit (Option α × Nat) :=
  decodeFrom (seq.length - pos + 1) t seq pos

/-- Walk down from a node along a list of channel symbols (specification
helper used to reason about paths in the tree; not part of the source). -/
def findPath : TreeNode β α → List β → Option (TreeNode β α)
  | t, [] => some t
  | t, b :: r =>
    match alookup b t.children with
    | none => none
    | some child => findPath child r

/-- The value stored at the node reached by walking `q` from `t` (`none` when
there is no such node or the node is valueless). -/
def valueAt (t : TreeNode β α) (q : List β) : Option α :=
  match findPath t q with
  | some n => n.value
  | none => none

/-- Whether the node reached by walking `q` from `t` exists and has at least
one child. -/
def kidsAt (t : TreeNode β α) (q : List β) : Bool :=
  match findPath t q with
  | some n => !n.children.isEmpty
  | none => false

/-- Well-formedness of the dict model: every children list in the tree binds
each channel symbol at most once (true of every tree the Python code can
build, since dicts cannot repeat keys). -/
inductive KeysOk : TreeNode β α → Prop where
  | mk {v : Option α} {ch : List (β × TreeNode β α)} :
      (akeys ch).Nodup → (∀ p ∈ ch, KeysOk p.2) → KeysOk (.mk v ch)

/-- The structural invariant claimed by the spec, restricted to non-root
nodes: every node reached by a non-empty path that carries a value is
childless (a leaf). -/
def properBelow (t : TreeNode β α) : Prop :=
  ∀ q : List β, q ≠ [] → (valueAt t q).isSome → kidsAt t q = false

/-- The codeword `c` leads from the root of `t` to a childless node holding
the symbol `x` (specification helper). -/
def leafAt (t : TreeNode β α) (c : List β) (x : α) : Prop :=
  ∃ n, findPath t c = some n ∧ n.value = some x ∧ n.children = []

/-- The body of `PrefixEncoderDecoder._build_tree_from_table`: insert every
`(symbol, code)` pair of the table in order, failing (`none`) on the first
prefix conflict. -/
def insertAll : TreeNode β α → List (α × List β) → Option (TreeNode β α)
  | t, [] => some t
  | t, (s, c) :: rest =>
    let res := insertCode t c s
    if res.2 then insertAll res.1 rest else none

/-- `PrefixEncoderDecoder._build_tree_from_table`: raises (`none`) on an empty
code table, otherwise inserts all entries into a fresh tree. -/
def treeFromTable (table : List (α × List β)) : Option (TreeNode β α) :=
  if table.isEmpty then none else insertAll freshNode table

/-- `PrefixEncoderDecoder._collect_codes_from_node`, reified as the pre-order
list of `(value, accumulated code)` writes it performs: the node's own value
first, then the children in insertion order. -/
def entriesOf (t : TreeNode β α) (cur : List β) : List (α × List β) :=
  match t with
  | .mk v children =>
    (match v with | some s => [(s, cur)] | none => []) ++ entriesList children cur
where
  /-- Writes performed by the recursive calls on a list of children. -/
  entriesList : List (β × TreeNode β α) → List β → List (α × List β)
  | [], _ => []
  | (b, c) :: rest, cur => entriesOf c (cur ++ [b]) ++ entriesList rest cur

/-- `PrefixEncoderDecoder._build_table_from_tree`: rebuild the code table dict
from the decoding tree by a pre-order traversal from the root. -/
def tableFromTree [DecidableEq α] (t : TreeNode β α) : List (α × List β) :=
  fromList (entriesOf t [])

end Tree

section Coder

variable {β α : Type} [DecidableEq β] [DecidableEq α]

/-- The per-symbol loop of `PrefixEncoderDecoder.encode`: look each message
symbol up in the code table and concatenate the codewords; error on a symbol
without a table entry. -/
def encodeGo (table : List (α × List β)) : List α → Except Unit (List β)
  | [] => .ok []
  | x :: m =>
    match alookup x table with
    | none => .error ()
    | some c =>
      match encodeGo table m with
      | .error e => .error e
      | .ok rest => .ok (c ++ rest)

/-- `PrefixEncoderDecoder.encode(message)`: raises on a missing/empty code
table, otherwise concatenates the codeword of each message symbol. -/
def pedEncode (table : List (α × List β)) (msg : List α) : Except Unit (List β) :=
  if table.isEmpty then .error () else encodeGo table msg

/-- Fuel-indexed body of `PrefixEncoderDecoder.decode`: repeatedly call
`treeDecode` at the current position until the input is consumed, collecting
the decoded symbols; a `None` symbol or a tree error raises.  Fuel exhaustion
(`none`) models divergence of the Python `while` loop. -/
def decodeLoop : Nat → TreeNode β α → List β → Nat → List α → Option (Except Unit (List α))
  | 0, _, _, _, _ => none
  | fuel + 1, t, seq, pos, acc =>
    if pos < seq.length then
      match treeDecode t seq pos with
      | .error _ => some (.error ())
      | .ok (none, _) => some (.error ())
      | .ok (some s, pos') => decodeLoop fuel t seq pos' (acc ++ [s])
    else some (.ok acc)

/-- `PrefixEncoderDecoder.decode(encoded)`, with fuel `seq.length + 1`: when
the root is not a valued leaf every iteration strictly advances the position,
so this fuel is exhausted only in the genuinely diverging case (tree-decode
returning the same position forever). -/
def decodeRun (t : TreeNode β α) (seq : List β) : Option (Except Unit (List α)) :=
  decodeLoop (seq.length + 1) t seq 0 []

end Coder

/-! ### Shannon-Fano-Elias coder (`shannon_fano_elias.py`) -/

section SFEDefs

/-- Exact model of `math.ceil(-math.log2(p))` on rationals, via the identity
`⌈-log₂ p⌉ = -⌊log₂ p⌋` (Mathlib's `Int.log` is the floor of the real
logarithm). -/
def ceilNegLog2 (p : ℚ) : ℤ := -(Int.log 2 p)

/-- `ShannonFanoEliasBinaryCoder._float_to_binary(value, length)`: repeated
doubling, one bit per iteration (`true` is the bit `1`); a non-positive
Python `length` makes the loop body run zero times, which the `Nat` argument
models. -/
def floatToBinary : ℚ → Nat → List Bool
  | _, 0 => []
  | v, k + 1 =>
    if 1 ≤ v * 2 then true :: floatToBinary (v * 2 - 1) k
    else false :: floatToBinary (v * 2) k

/-- The rows `(symbol, p(x), F(x))` produced by the cumulative loop of
`ShannonFanoEliasBinaryCoder.__init__`: `F(x)` is the running sum of the
probabilities of the symbols listed before `x`. -/
def sfeRows : ℚ → List (Nat × ℚ) → List (Nat × ℚ × ℚ)
  | _, [] => []
  | acc, (s, p) :: rest => (s, p, acc) :: sfeRows (acc + p) rest

/-- The code table built by
`ShannonFanoEliasBinaryCoder._build_prefix_code_tree`: for each symbol in
order, `F_bar = F + p/2` doubled out to `ceil(-log2 p) + 1` bits. -/
def sfeTable (probs : List (Nat × ℚ)) : List (Nat × List Bool) :=
  fromList ((sfeRows 0 probs).map
    (fun r => (r.1, floatToBinary (r.2.2 + r.2.1 / 2) (ceilNegLog2 r.2.1 + 1).toNat)))

/-- Validation in `ShannonFanoEliasBinaryCoder.__init__`: all probabilities
strictly positive and the total within absolute tolerance `1e-6` of `1`
(`math.isclose(total, 1.0, abs_tol=1e-6)` is exactly this bound for such
totals). -/
def sfeValid (probs : List (Nat × ℚ)) : Prop :=
  (∀ e ∈ probs, 0 < e.2) ∧ |(probs.map Prod.snd).sum - 1| ≤ 1 / 1000000

end SFEDefs

/-! ### Huffman n-gram coder (`huffman_ngram.py`) -/

section HuffDefs

/-- The padding symbol `PAD = "__PAD__"`, modelled as a distinguished natural
number. -/
def PAD : Nat := 0

/-- A heap entry `(probability, counter, code-table)` as pushed on the
`heapq` heap; counters are pairwise distinct in every reachable state, so
`heapq`'s tuple comparison never reaches the table. -/
abbrev HuffItem : Type := ℚ × Nat × List (List Nat × List Bool)

/-- Strict order of heap entries: `heapq` pops the entry with the least
`(probability, counter)` pair, compared lexicographically. -/
def heapLt (a b : HuffItem) : Prop :=
  a.1 < b.1 ∨ (a.1 = b.1 ∧ a.2.1 < b.2.1)

instance (a b : HuffItem) : Decidable (heapLt a b) := by
  unfold heapLt
  infer_instance

/-- `heapq.heappop`: remove and return a least entry (the heap is modelled by
its contents; with distinct counters the least entry is unique). -/
def popMin : List HuffItem → Option (HuffItem × List HuffItem)
  | [] => none
  | a :: rest =>
    match popMin rest with
    | none => some (a, [])
    | some (m, rest') => if heapLt m a then some (m, a :: rest') else some (a, rest)

/-- One Huffman merge: prepend `0` to all codewords of the first popped
table, `1` to all codewords of the second, and collect them in one dict. -/
def mergedTable (t0 t1 : List (List Nat × List Bool)) : List (List Nat × List Bool) :=
  fromList (t0.map (fun e => (e.1, false :: e.2)) ++ t1.map (fun e => (e.1, true :: e.2)))

/-- The body of the `while len(heap) > 1` loop: pop the two least entries and
push their merge with summed probability and a fresh counter. -/
def huffStep (st : List HuffItem × Nat) : List HuffItem × Nat :=
  match popMin st.1 with
  | none => st
  | some (i0, h1) =>
    match popMin h1 with
    | none => st
    | some (i1, h2) =>
      (h2 ++ [(i0.1 + i1.1, st.2, mergedTable i0.2.2 i1.2.2)], st.2 + 1)

/-- The Huffman merge loop; every iteration shrinks the heap by one, so fuel
equal to the initial heap size is never exhausted. -/
def huffLoop : Nat → List HuffItem × Nat → List HuffItem × Nat
  | 0, st => st
  | f + 1, st => if st.1.length ≤ 1 then st else huffLoop f (huffStep st)

/-- `itertools.product(l, repeat=n)` as lists (first coordinate varies
slowest, matching the iteration order). -/
def prodLists {γ : Type} : Nat → List γ → List (List γ)
  | 0, _ => [[]]
  | k + 1, l => l.flatMap (fun a => (prodLists k l).map (fun g => a :: g))

/-- The extended distribution of `HuffmanNgramCoder.__init__`: every given
probability is scaled by `(1 - 1e-10)/total` and the padding symbol is
assigned `1e-10`. -/
def huffPExt (probs : List (Nat × ℚ)) : List (Nat × ℚ) :=
  aupd PAD (1 / 10000000000)
    (fromList (probs.map
      (fun e => (e.1, e.2 * ((1 - 1 / 10000000000) / (probs.map Prod.snd).sum)))))

/-- `self._ngram_p`: every length-`n` tuple over the extended alphabet mapped
to the product of its symbols' extended probabilities. -/
def huffNgramP (n : Nat) (probs : List (Nat × ℚ)) : List (List Nat × ℚ) :=
  fromList ((prodLists n (akeys (huffPExt probs))).map
    (fun g => (g, (g.map (fun s => (alookup s (huffPExt probs)).getD 0)).prod)))

/-- The initial heap: one singleton table `{ngram: []}` per n-gram, pushed
with its probability and a running counter. -/
def huffHeap0 (ngp : List (List Nat × ℚ)) : List HuffItem :=
  ngp.enum.map (fun e => (e.2.2, e.1, [(e.2.1, ([] : List Bool))]))

/-- `HuffmanNgramCoder._build_prefix_code_tree`'s code table: run the merge
loop and take the single remaining entry's table (an empty dict for an empty
heap). -/
def huffTable (n : Nat) (probs : List (Nat × ℚ)) : List (List Nat × List Bool) :=
  match (huffLoop (huffHeap0 (huffNgramP n probs)).length
      (huffHeap0 (huffNgramP n probs), (huffHeap0 (huffNgramP n probs)).length)).1 with
  | [] => []
  | i :: _ => i.2.2

/-- Validation in `HuffmanNgramCoder.__init__`: `n >= 1`, all probabilities
positive, total within `1e-6` of `1`. -/
def huffValid (n : Nat) (probs : List (Nat × ℚ)) : Prop :=
  1 ≤ n ∧ (∀ e ∈ probs, 0 < e.2) ∧ |(probs.map Prod.snd).sum - 1| ≤ 1 / 1000000

instance (n : Nat) (probs : List (Nat × ℚ)) : Decidable (huffValid n probs) := by
  unfold huffValid
  infer_instance

/-- The state of a fully constructed `HuffmanNgramCoder`: block length, the
n-gram distribution, the decoding tree, and the code table rebuilt from the
tree by the base class. -/
structure HuffState where
  n : Nat
  ngramP : List (List Nat × ℚ)
  tree : TreeNode Bool (List Nat)
  table : List (List Nat × List Bool)

/-- `HuffmanNgramCoder.__init__`: validate, build the Huffman table, build
the tree from it, then rebuild the table from the tree (as the base class
constructor does). -/
def huffmanInit (n : Nat) (probs : List (Nat × ℚ)) : Option HuffState :=
  if huffValid n probs then
    match treeFromTable (huffTable n probs) with
    | none => none
    | some T => some ⟨n, huffNgramP n probs, T, tableFromTree T⟩
  else none

/-- `HuffmanNgramCoder.expected_code_length`: the probability-weighted sum of
codeword lengths over the (rebuilt) code table. -/
def expectedCodeLength (st : HuffState) : ℚ :=
  (st.table.map (fun e => ((alookup e.1 st.ngramP).getD 0) * e.2.length)).sum

/-- Split a text into consecutive blocks of `n` symbols (the slicing loop of
`encode_text`; for `n ≥ 1` and a text whose length is a multiple of `n`
every block has exactly `n` symbols). -/
def chunksText (n : Nat) : List Nat → List (List Nat)
  | [] => []
  | x :: xs => (x :: xs.take (n - 1)) :: chunksText n (xs.drop (n - 1))
termination_by l => l.length
decreasing_by simp; omega

/-- The `while out and out[-1] == PAD: out.pop()` loop of `decode_text`:
drop trailing padding symbols. -/
def stripPad (out : List Nat) : List Nat :=
  (out.reverse.dropWhile (fun s => decide (s = PAD))).reverse

/-- The per-block encoding loop of `encode_text`: each block is encoded as a
one-symbol message over the n-gram alphabet. -/
def encodeBlocks (tbl : List (List Nat × List Bool)) : List (List Nat) → Except Unit (List Bool)
  | [] => .ok []
  | blk :: rest =>
    match pedEncode tbl [blk] with
    | .error e => .error e
    | .ok bits =>
      match encodeBlocks tbl rest with
      | .error e => .error e
      | .ok more => .ok (bits ++ more)

/-- `HuffmanNgramCoder.encode_text`: right-pad with `PAD` to a multiple of
`n`, then encode the blocks. -/
def encodeText (st : HuffState) (text : List Nat) : Except Unit (List Bool) :=
  let rem := text.length % st.n
  let padded := if rem ≠ 0 then text ++ List.replicate (st.n - rem) PAD else text
  encodeBlocks st.table (chunksText st.n padded)

/-- `HuffmanNgramCoder.decode_text`: decode the bit stream into n-grams,
flatten them, and strip trailing padding symbols. -/
def decodeText (st : HuffState) (bits : List Bool) : Option (Except Unit (List Nat)) :=
  match decodeRun st.tree bits with
  | none => none
  | some (.error e) => some (.error e)
  | some (.ok ngrams) => some (.ok (stripPad ngrams.flatten))

/-- Well-formedness of one heap table: no repeated n-gram, pairwise
prefix-free codewords. -/
def TableOk (t : List (List Nat × List Bool)) : Prop :=
  (akeys t).Nodup ∧ t.Pairwise (fun a b => ¬a.2 <+: b.2 ∧ ¬b.2 <+: a.2)

/-- Heap invariant: every entry's table is well-formed and the entry domains
partition the full n-gram domain `dom`. -/
def HeapOk (dom : List (List Nat)) (h : List HuffItem) : Prop :=
  (∀ i ∈ h, TableOk i.2.2) ∧ ((h.map (fun i => akeys i.2.2)).flatten).Perm dom

/-- Analysis device: the total cost charged by the Huffman merge loop — each
merge of the two minimal heap entries charges the sum of their weights (every
symbol below them gets one bit longer).  Mirrors `huffLoop`. -/
def stepsCost : Nat → List HuffItem × Nat → ℚ
  | 0, _ => 0
  | f + 1, st =>
    if st.1.length ≤ 1 then 0
    else
      match popMin st.1 with
      | none => 0
      | some (i0, h1) =>
        match popMin h1 with
        | none => 0
        | some (i1, _) => i0.1 + i1.1 + stepsCost f (huffStep st)

/-- The Kraft sum of a list of codewords. -/
def kraftSum (cs : List (List Bool)) : ℚ :=
  (cs.map (fun c => ((1 : ℚ) / 2) ^ c.length)).sum

/-- Analysis device for the Kraft inequality: keep the tails of the codewords
that start with the given bit. -/
def splitCode (bit : Bool) : List Bool → Option (List Bool)
  | [] => none
  | b :: t => if b = bit then some t else none

/-- The Kraft sum of a weighted length assignment. -/
def kraftW (wl : List (ℚ × ℕ)) : ℚ :=
  (wl.map (fun x => ((1 : ℚ) / 2) ^ x.2)).sum

/-- The weighted cost of a length assignment. -/
def costW (wl : List (ℚ × ℕ)) : ℚ :=
  (wl.map (fun x => x.1 * (x.2 : ℚ))).sum

/-- The probability-weighted total codeword length of one code table, with
probabilities given by `p`. -/
def itemCost (p : List Nat → ℚ) (t : List (List Nat × List Bool)) : ℚ :=
  (t.map (fun e => p e.1 * (e.2.length : ℚ))).sum

/-- The total `itemCost` of all tables in a heap. -/
def itemCostSum (p : List Nat → ℚ) (h : List HuffItem) : ℚ :=
  (h.map (fun i => itemCost p i.2.2)).sum

/-- Weight invariant: every heap entry's weight is the total probability of
the n-grams in its table. -/
def WeightOk (p : List Nat → ℚ) (h : List HuffItem) : Prop :=
  ∀ i ∈ h, i.1 = ((akeys i.2.2).map p).sum

/-- Example coder data: the fully evaluated `HuffmanNgramCoder(1, {1: 1.0})`.
The padded alphabet is `{1, PAD}`, so there are two 1-grams.  `exA`/`exB` are
the two initial heap entries, `exNgp` the 1-gram distribution, `exTable` the
merged code table, `exTree` the decoding tree and `exState` the constructed
coder. -/
def exNgp : List (List Nat × ℚ) :=
  [([1], 9999999999 / 10000000000), ([0], 1 / 10000000000)]

/-- First initial heap entry of the example coder (1-gram `[1]`). -/
def exA : HuffItem := (9999999999 / 10000000000, 0, [([1], [])])

/-- Second initial heap entry of the example coder (1-gram `[0]`, padding). -/
def exB : HuffItem := (1 / 10000000000, 1, [([0], [])])

/-- Code table of the example coder after the single Huffman merge. -/
def exTable : List (List Nat × List Bool) := [([0], [false]), ([1], [true])]

/-- Decoding tree of the example coder. -/
def exTree : TreeNode Bool (List Nat) :=
  .mk none [(false, .mk (some [0]) []), (true, .mk (some [1]) [])]

/-- The example coder's full state. -/
def exState : HuffState := ⟨1, exNgp, exTree, exTable⟩

end HuffDefs

/-! ### Association-list lemmas -/

section AList

variable {κ ν : Type} [DecidableEq κ]

@[simp]
theorem alookup_nil (k : κ) : alookup k ([] : List (κ × ν)) = none := rfl

@[simp]
theorem alookup_cons (k k' : κ) (v : ν) (l : List (κ × ν)) :
    alookup k ((k', v) :: l) = if k' = k then some v else alookup k l := rfl

@[simp]
theorem alookup_aupd_self (k : κ) (v : ν) (l : List (κ × ν)) :
    alookup k (aupd k v l) = some v := by
  induction l with
  | nil => simp [aupd]
  | cons p rest ih =>
    obtain ⟨k', v'⟩ := p
    by_cases h : k' = k <;> simp [aupd, h, ih]

theorem alookup_aupd_ne {k k' : κ} (h : k' ≠ k) (v : ν) (l : List (κ × ν)) :
    alookup k' (aupd k v l) = alookup k' l := by
  induction l with
  | nil => simp [aupd, Ne.symm h]
  | cons p rest ih =>
    obtain ⟨k'', v''⟩ := p
    by_cases hk : k'' = k
    · subst hk
      simp [aupd, Ne.symm h]
    · by_cases hk2 : k'' = k' <;> simp [aupd, hk, hk2, h, ih]

theorem aupd_of_alookup_eq {k : κ} {v : ν} {l : List (κ × ν)}
    (h : alookup k l = some v) : aupd k v l = l := by
  induction l with
  | nil => simp [alookup] at h
  | cons p rest ih =>
    obtain ⟨k', v'⟩ := p
    by_cases hk : k' = k
    · subst hk
      simp [alookup] at h
      simp [aupd, h]
    · simp [alookup, hk] at h
      simp [aupd, hk, ih h]

theorem akeys_aupd (k : κ) (v : ν) (l : List (κ × ν)) :
    akeys (aupd k v l) = if k ∈ akeys l then akeys l else akeys l ++ [k] := by
  induction l with
  | nil => simp [aupd, akeys]
  | cons p rest ih =>
    obtain ⟨k', v'⟩ := p
    by_cases hk : k' = k
    · subst hk
      simp [aupd, akeys]
    · simp only [aupd, if_neg hk, akeys, List.map_cons] at ih ⊢
      by_cases hmem : k ∈ List.map Prod.fst rest
      · simp [hmem, ih, Ne.symm hk]
      · simp [hmem, ih, Ne.symm hk]

theorem akeys_aupd_nodup {k : κ} {v : ν} {l : List (κ × ν)}
    (h : (akeys l).Nodup) : (akeys (aupd k v l)).Nodup := by
  rw [akeys_aupd]
  by_cases hmem : k ∈ akeys l
  · simpa [hmem] using h
  · rw [if_neg hmem, List.nodup_append]
    refine ⟨h, List.nodup_singleton k, ?_⟩
    intro a ha hak
    simp at hak
    exact hmem (hak ▸ ha)

theorem alookup_isSome_iff_mem_akeys (k : κ) (l : List (κ × ν)) :
    (alookup k l).isSome ↔ k ∈ akeys l := by
  induction l with
  | nil => simp [akeys]
  | cons p rest ih =>
    obtain ⟨k', v'⟩ := p
    by_cases h : k' = k
    · subst h
      simp [akeys]
    · simp [akeys, h, ih, Ne.symm h]

theorem alookup_mem {k : κ} {v : ν} {l : List (κ × ν)}
    (h : alookup k l = some v) : (k, v) ∈ l := by
  induction l with
  | nil => simp [alookup] at h
  | cons p rest ih =>
    obtain ⟨k', v'⟩ := p
    by_cases hk : k' = k
    · subst hk
      simp [alookup] at h
      simp [h]
    · simp [alookup, hk] at h
      simp [ih h]

theorem mem_alookup_of_nodup {k : κ} {v : ν} {l : List (κ × ν)}
    (hnd : (akeys l).Nodup) (h : (k, v) ∈ l) : alookup k l = some v := by
  induction l with
  | nil => simp at h
  | cons p rest ih =>
    obtain ⟨k', v'⟩ := p
    simp only [akeys, List.map_cons, List.nodup_cons] at hnd
    rcases List.mem_cons.1 h with h1 | h1
    · cases h1
      simp [alookup]
    · have hk : k' ≠ k := by
        rintro rfl
        exact hnd.1 (List.mem_map.2 ⟨(k', v), h1, rfl⟩)
      simp [alookup, hk, ih (by simpa [akeys] using hnd.2) h1]

theorem alookup_eq_of_mem_iff {l l' : List (κ × ν)}
    (hnd : (akeys l).Nodup) (hnd' : (akeys l').Nodup)
    (hmem : ∀ k v, (k, v) ∈ l ↔ (k, v) ∈ l') (k : κ) :
    alookup k l = alookup k l' := by
  cases h : alookup k l with
  | some v => rw [mem_alookup_of_nodup hnd' ((hmem k v).1 (alookup_mem h))]
  | none =>
    cases h' : alookup k l' with
    | none => rfl
    | some v =>
      have := mem_alookup_of_nodup hnd ((hmem k v).2 (alookup_mem h'))
      rw [this] at h
      exact absurd h (by simp)

theorem aupd_append_of_not_mem {k : κ} (v : ν) {l : List (κ × ν)}
    (h : k ∉ akeys l) : aupd k v l = l ++ [(k, v)] := by
  induction l with
  | nil => simp [aupd]
  | cons p rest ih =>
    obtain ⟨k', v'⟩ := p
    simp only [akeys, List.map_cons, List.mem_cons, not_or] at h
    simp [aupd, Ne.symm h.1, ih (by simpa [akeys] using h.2)]

theorem foldl_aupd_append {l : List (κ × ν)} :
    ∀ {acc : List (κ × ν)}, (akeys (acc ++ l)).Nodup →
      l.foldl (fun acc p => aupd p.1 p.2 acc) acc = acc ++ l := by
  induction l with
  | nil => simp
  | cons p rest ih =>
    intro acc hnd
    obtain ⟨k, v⟩ := p
    have hnd' : (akeys acc ++ (k :: akeys rest)).Nodup := by
      simpa [akeys, List.map_append] using hnd
    have hk : k ∉ akeys acc := by
      intro hmem
      rcases List.nodup_append.1 hnd' with ⟨-, -, hdisj⟩
      exact hdisj hmem (by simp)
    have step : aupd k v acc = acc ++ [(k, v)] := aupd_append_of_not_mem v hk
    simp only [List.foldl_cons, step]
    have hnd2 : (akeys ((acc ++ [(k, v)]) ++ rest)).Nodup := by
      simpa [akeys, List.map_append, List.append_assoc] using hnd
    have := ih hnd2
    simpa using this

theorem fromList_eq_self {l : List (κ × ν)} (hnd : (akeys l).Nodup) :
    fromList l = l := by
  have h : l.foldl (fun acc p => aupd p.1 p.2 acc) [] = [] ++ l :=
    foldl_aupd_append (by simpa using hnd)
  simpa [fromList] using h

theorem mem_fromList {l : List (κ × ν)} {p : κ × ν} (h : p ∈ fromList l) : p ∈ l := by
  suffices H : ∀ acc, p ∈ l.foldl (fun acc q => aupd q.1 q.2 acc) acc → p ∈ acc ∨ p ∈ l by
    rcases H [] h with h' | h'
    · simp at h'
    · exact h'
  clear h
  induction l with
  | nil => simp
  | cons q rest ih =>
    intro acc h
    obtain ⟨k, v⟩ := q
    simp only [List.foldl_cons] at h
    rcases ih _ h with h' | h'
    · have : p ∈ acc ∨ p = (k, v) := by
        clear h ih
        induction acc with
        | nil => simpa [aupd] using h'
        | cons a rest2 ih2 =>
          obtain ⟨k', v'⟩ := a
          by_cases hk : k' = k
          · subst hk
            simp [aupd] at h'
            rcases h' with h' | h'
            · exact Or.inr h'
            · exact Or.inl (by simp [h'])
          · simp [aupd, hk] at h'
            rcases h' with h' | h'
            · exact Or.inl (by simp [h'])
            · rcases ih2 h' with h'' | h''
              · exact Or.inl (by simp [h''])
              · exact Or.inr h''
      rcases this with h'' | h''
      · exact Or.inl h''
      · exact Or.inr (by simp [h''])
    · exact Or.inr (by simp [h'])

end AList

/-! ### Tree basics -/

section TreeBasics

variable {β α : Type}

@[simp]
theorem TreeNode.value_mk (v : Option α) (ch : List (β × TreeNode β α)) :
    (TreeNode.mk v ch).value = v := rfl

@[simp]
theorem TreeNode.children_mk (v : Option α) (ch : List (β × TreeNode β α)) :
    (TreeNode.mk v ch).children = ch := rfl

/-- Induction over the nested tree type: to prove `P` everywhere it is enough
to prove it at a node assuming it for all children. -/
theorem treeInd {P : TreeNode β α → Prop}
    (step : ∀ v ch, (∀ p ∈ ch, P p.2) → P (.mk v ch)) : ∀ t, P t
  | .mk v ch => by
    refine step v ch ?_
    intro p hp
    have : sizeOf p.2 < 1 + sizeOf v + sizeOf ch := by
      have h1 := List.sizeOf_lt_of_mem hp
      cases p with
      | mk b c => simp at h1 ⊢; omega
    exact treeInd step p.2
termination_by t => sizeOf t

variable [DecidableEq β]

@[simp]
theorem findPath_nil (t : TreeNode β α) : findPath t [] = some t := rfl

theorem findPath_cons (t : TreeNode β α) (b : β) (r : List β) :
    findPath t (b :: r) = (alookup b t.children).bind (fun c => findPath c r) := by
  cases h : alookup b t.children <;> simp [findPath, h]

@[simp]
theorem valueAt_nil (t : TreeNode β α) : valueAt t [] = t.value := rfl

theorem valueAt_cons (t : TreeNode β α) (b : β) (q : List β) :
    valueAt t (b :: q) =
      match alookup b t.children with
      | some n => valueAt n q
      | none => none := by
  cases h : alookup b t.children <;> simp [valueAt, findPath, h]

@[simp]
theorem kidsAt_nil (t : TreeNode β α) : kidsAt t [] = !t.children.isEmpty := rfl

theorem kidsAt_cons (t : TreeNode β α) (b : β) (q : List β) :
    kidsAt t (b :: q) =
      match alookup b t.children with
      | some n => kidsAt n q
      | none => false := by
  cases h : alookup b t.children <;> simp [kidsAt, findPath, h]

@[simp]
theorem valueAt_fresh (q : List β) : valueAt (freshNode : TreeNode β α) q = none := by
  cases q with
  | nil => rfl
  | cons b r => simp [valueAt_cons, freshNode, alookup]

@[simp]
theorem kidsAt_fresh (q : List β) : kidsAt (freshNode : TreeNode β α) q = false := by
  cases q with
  | nil => rfl
  | cons b r => simp [kidsAt_cons, freshNode, alookup]

theorem aupd_ne_nil {κ : Type} [DecidableEq κ] {ν : Type} (k : κ) (v : ν)
    (l : List (κ × ν)) : (aupd k v l).isEmpty = false := by
  cases l with
  | nil => rfl
  | cons p rest =>
    obtain ⟨k', v'⟩ := p
    by_cases h : k' = k <;> simp [aupd, h]

theorem mem_aupd {κ : Type} [DecidableEq κ] {ν : Type} {k : κ} {v : ν}
    {l : List (κ × ν)} {p : κ × ν} (h : p ∈ aupd k v l) : p = (k, v) ∨ p ∈ l := by
  induction l with
  | nil => simpa [aupd] using h
  | cons q rest ih =>
    obtain ⟨k', v'⟩ := q
    by_cases hk : k' = k
    · subst hk
      simp [aupd] at h
      tauto
    · simp [aupd, hk] at h
      rcases h with h | h
      · exact Or.inr (by simp [h])
      · rcases ih h with h' | h'
        · exact Or.inl h'
        · exact Or.inr (by simp [h'])

end TreeBasics

/-! ### Per-call behaviour of `insert_code` -/

section InsertLemmas

variable {β α : Type} [DecidableEq β]

/-- Inserting any codeword into a fresh node always succeeds. -/
theorem insertCode_fresh_ok (c : List β) (s : α) :
    (insertCode (freshNode : TreeNode β α) c s).2 = true := by
  induction c with
  | nil => rfl
  | cons b r ih => simpa [insertCode, freshNode, alookup] using ih

/-- C9 core: when `insert_code` raises a prefix conflict it has not modified
the tree at all. -/
theorem insertCode_fail_eq :
    ∀ (c : List β) (t : TreeNode β α) (s : α),
      (insertCode t c s).2 = false → (insertCode t c s).1 = t
  | [], .mk v ch, s => by
    by_cases h : ch.isEmpty <;> simp [insertCode, h]
  | b :: r, .mk v ch, s => by
    intro hfail
    cases hck : alookup b ch with
    | none =>
      exfalso
      have := insertCode_fresh_ok (α := α) r s
      simp [insertCode, hck, this] at hfail
    | some child =>
      by_cases hv : child.value.isSome
      · simp [insertCode, hck, hv]
      · simp only [insertCode, hck, hv, Bool.false_eq_true, if_false] at hfail ⊢
        have := insertCode_fail_eq r child s hfail
        simp [this, aupd_of_alookup_eq hck]

/-- Value equation for a successful insertion: the landing node now carries
the inserted symbol, every other position is unchanged. -/
theorem insertCode_ok_valueAt :
    ∀ (c : List β) (t : TreeNode β α) (s : α),
      (insertCode t c s).2 = true → ∀ q : List β,
        valueAt (insertCode t c s).1 q = if q = c then some s else valueAt t q
  | [], .mk v ch, s => by
    intro hok q
    have hch : ch.isEmpty = true := by
      by_contra h
      simp [insertCode, h] at hok
    have hch' : ch = [] := by simpa using hch
    subst hch'
    cases q with
    | nil => simp [insertCode]
    | cons b r => simp [insertCode, valueAt_cons, alookup]
  | b :: r, .mk v ch, s => by
    intro hok q
    cases hck : alookup b ch with
    | some child =>
      by_cases hv : child.value.isSome
      · simp [insertCode, hck, hv] at hok
      · simp only [insertCode, hck, hv, Bool.false_eq_true, if_false] at hok ⊢
        cases q with
        | nil => simp [valueAt_cons]
        | cons b' q' =>
          by_cases hb : b' = b
          · subst hb
            simp only [valueAt_cons, TreeNode.children_mk, alookup_aupd_self, hck]
            rw [insertCode_ok_valueAt r child s hok q']
            by_cases hq : q' = r <;> simp [hq]
          · simp [valueAt_cons, alookup_aupd_ne (fun e => hb e) _ ch, hck, hb]
    | none =>
      simp only [insertCode, hck] at hok ⊢
      cases q with
      | nil => simp [valueAt_cons]
      | cons b' q' =>
        by_cases hb : b' = b
        · subst hb
          simp only [valueAt_cons, TreeNode.children_mk, alookup_aupd_self, hck]
          rw [insertCode_ok_valueAt r freshNode s hok q']
          by_cases hq : q' = r <;> simp [hq]
        · simp [valueAt_cons, alookup_aupd_ne (fun e => hb e) _ ch, hck, hb]

/-- Children equation for a successful insertion: a position acquires children
exactly when it lies strictly along the inserted codeword. -/
theorem insertCode_ok_kidsAt :
    ∀ (c : List β) (t : TreeNode β α) (s : α),
      (insertCode t c s).2 = true → ∀ q : List β,
        kidsAt (insertCode t c s).1 q =
          (kidsAt t q || decide (q <+: c ∧ q ≠ c))
  | [], .mk v ch, s => by
    intro hok q
    have hch : ch.isEmpty = true := by
      by_contra h
      simp [insertCode, h] at hok
    have hch' : ch = [] := by simpa using hch
    subst hch'
    cases q with
    | nil => simp [insertCode]
    | cons b r => simp [insertCode, kidsAt_cons, alookup]
  | b :: r, .mk v ch, s => by
    intro hok q
    cases hck : alookup b ch with
    | some child =>
      by_cases hv : child.value.isSome
      · simp [insertCode, hck, hv] at hok
      · simp only [insertCode, hck, hv, Bool.false_eq_true, if_false] at hok ⊢
        cases q with
        | nil => simp [kidsAt_nil, aupd_ne_nil]
        | cons b' q' =>
          by_cases hb : b' = b
          · subst hb
            simp only [kidsAt_cons, TreeNode.children_mk, alookup_aupd_self, hck]
            rw [insertCode_ok_kidsAt r child s hok q']
            simp [List.cons_prefix_cons]
          · simp [kidsAt_cons, alookup_aupd_ne (fun e => hb e) _ ch, hck, hb,
              List.cons_prefix_cons]
    | none =>
      simp only [insertCode, hck] at hok ⊢
      cases q with
      | nil => simp [kidsAt_nil, aupd_ne_nil]
      | cons b' q' =>
        by_cases hb : b' = b
        · subst hb
          simp only [kidsAt_cons, TreeNode.children_mk, alookup_aupd_self, hck]
          rw [insertCode_ok_kidsAt r freshNode s hok q']
          simp [List.cons_prefix_cons]
        · simp [kidsAt_cons, alookup_aupd_ne (fun e => hb e) _ ch, hck, hb,
            List.cons_prefix_cons]

end InsertLemmas

/-! ### More per-call lemmas and the `insertAll` characterisations -/

section InsertAllLemmas

variable {β α : Type} [DecidableEq β]

/-- A successful insertion implies that no non-empty prefix of the codeword
(including the codeword itself) pointed at a valued node beforehand. -/
theorem insertCode_ok_no_valued :
    ∀ (c : List β) (t : TreeNode β α) (s : α),
      (insertCode t c s).2 = true → ∀ q : List β, q ≠ [] → q <+: c → valueAt t q = none
  | [], t, s => by
    intro _ q hne hpre
    exact absurd (List.prefix_nil.1 hpre) hne
  | b :: r, .mk v ch, s => by
    intro hok q hne hpre
    cases q with
    | nil => exact absurd rfl hne
    | cons b' q' =>
      have hb : b' = b := (List.cons_prefix_cons.1 hpre).1
      have hpre' : q' <+: r := (List.cons_prefix_cons.1 hpre).2
      subst hb
      rw [valueAt_cons]
      simp only [TreeNode.children_mk]
      cases hck : alookup b' ch with
      | none => rfl
      | some child =>
        by_cases hv : child.value.isSome
        · simp [insertCode, hck, hv] at hok
        · simp only [insertCode, hck, hv, Bool.false_eq_true, if_false] at hok
          cases q' with
          | nil =>
            simpa using Option.not_isSome_iff_eq_none.1 (by simpa using hv)
          | cons b'' q'' =>
            exact insertCode_ok_no_valued r child s hok _ (by simp) hpre'

/-- A successful insertion implies the landing position had no children
beforehand. -/
theorem insertCode_ok_no_kids :
    ∀ (c : List β) (t : TreeNode β α) (s : α),
      (insertCode t c s).2 = true → kidsAt t c = false
  | [], .mk v ch, s => by
    intro hok
    have hch : ch.isEmpty = true := by
      by_contra h
      simp [insertCode, h] at hok
    simp [hch]
  | b :: r, .mk v ch, s => by
    intro hok
    cases hck : alookup b ch with
    | none => simp [kidsAt_cons, hck]
    | some child =>
      by_cases hv : child.value.isSome
      · simp [insertCode, hck, hv] at hok
      · simp only [insertCode, hck, hv, Bool.false_eq_true, if_false] at hok
        rw [kidsAt_cons]
        simp only [TreeNode.children_mk, hck]
        exact insertCode_ok_no_kids r child s hok

theorem keysOk_fresh {γ δ : Type} : KeysOk (freshNode : TreeNode γ δ) :=
  KeysOk.mk (by simp [akeys]) (by simp)

/-- Insertion keeps all children dicts free of repeated keys. -/
theorem insertCode_keysOk :
    ∀ (c : List β) (t : TreeNode β α) (s : α), KeysOk t → KeysOk (insertCode t c s).1
  | [], .mk v ch, s => by
    intro hk
    cases hk with
    | mk hnd hall =>
      by_cases h : ch.isEmpty <;> simp [insertCode, h] <;> exact KeysOk.mk hnd hall
  | b :: r, .mk v ch, s => by
    intro hk
    cases hk with
    | mk hnd hall =>
      cases hck : alookup b ch with
      | none =>
        simp only [insertCode, hck]
        refine KeysOk.mk (akeys_aupd_nodup hnd) ?_
        intro p hp
        rcases mem_aupd hp with h | h
        · subst h
          exact insertCode_keysOk r freshNode s keysOk_fresh
        · exact hall p h
      | some child =>
        by_cases hv : child.value.isSome
        · simp only [insertCode, hck, hv, if_true]
          exact KeysOk.mk hnd hall
        · simp only [insertCode, hck, hv, Bool.false_eq_true, if_false]
          refine KeysOk.mk (akeys_aupd_nodup hnd) ?_
          intro p hp
          rcases mem_aupd hp with h | h
          · subst h
            exact insertCode_keysOk r child s (hall (b, child) (alookup_mem hck))
          · exact hall p h

theorem insertAll_keysOk {es : List (α × List β)} :
    ∀ {t T : TreeNode β α}, insertAll t es = some T → KeysOk t → KeysOk T := by
  induction es with
  | nil =>
    intro t T h hk
    simp [insertAll] at h
    exact h ▸ hk
  | cons e rest ih =>
    intro t T h hk
    obtain ⟨s, c⟩ := e
    simp only [insertAll] at h
    by_cases hok : (insertCode t c s).2 <;> simp [hok] at h
    exact ih h (insertCode_keysOk c t s hk)

/-- Values can only come from the inserted entries (collect direction). -/
theorem insertAll_valueAt_mem {es : List (α × List β)} {s : α} {q : List β} :
    ∀ {t T : TreeNode β α}, insertAll t es = some T →
      valueAt T q = some s → valueAt t q = some s ∨ (s, q) ∈ es := by
  induction es with
  | nil =>
    intro t T h hv
    simp [insertAll] at h
    exact Or.inl (h ▸ hv)
  | cons e rest ih =>
    intro t T h hv
    obtain ⟨s0, c0⟩ := e
    simp only [insertAll] at h
    by_cases hok : (insertCode t c0 s0).2 <;> simp [hok] at h
    rcases ih h hv with h1 | h1
    · rw [insertCode_ok_valueAt c0 t s0 hok q] at h1
      by_cases hq : q = c0
      · subst hq
        simp at h1
        exact Or.inr (by simp [h1])
      · rw [if_neg hq] at h1
        exact Or.inl h1
    · exact Or.inr (by simp [h1])

/-- A value present before a successful batch of insertions is still present
afterwards. -/
theorem insertAll_valued_mono {es : List (α × List β)} {q : List β} :
    ∀ {t T : TreeNode β α}, insertAll t es = some T →
      (valueAt t q).isSome → (valueAt T q).isSome := by
  induction es with
  | nil =>
    intro t T h hv
    simp [insertAll] at h
    exact h ▸ hv
  | cons e rest ih =>
    intro t T h hv
    obtain ⟨s0, c0⟩ := e
    simp only [insertAll] at h
    by_cases hok : (insertCode t c0 s0).2 <;> simp [hok] at h
    refine ih h ?_
    rw [insertCode_ok_valueAt c0 t s0 hok q]
    by_cases hq : q = c0 <;> simp [hq, hv]

/-- Every inserted entry leaves a value at its codeword position. -/
theorem insertAll_valued_of_mem {es : List (α × List β)} {s : α} {q : List β} :
    ∀ {t T : TreeNode β α}, insertAll t es = some T →
      (s, q) ∈ es → (valueAt T q).isSome := by
  induction es with
  | nil =>
    intro t T _ hm
    simp at hm
  | cons e rest ih =>
    intro t T h hm
    obtain ⟨s0, c0⟩ := e
    simp only [insertAll] at h
    by_cases hok : (insertCode t c0 s0).2 <;> simp [hok] at h
    rcases List.mem_cons.1 hm with h1 | h1
    · cases h1
      refine insertAll_valued_mono h ?_
      rw [insertCode_ok_valueAt _ t _ hok q]
      simp
    · exact ih h h1

/-- Characterisation of the valued positions of a tree built by a successful
batch of insertions into a fresh tree. -/
theorem insertAll_valued_iff {es : List (α × List β)} {T : TreeNode β α} {q : List β}
    (h : insertAll freshNode es = some T) :
    (valueAt T q).isSome ↔ ∃ s, (s, q) ∈ es := by
  constructor
  · intro hv
    rw [Option.isSome_iff_exists] at hv
    obtain ⟨s, hs⟩ := hv
    rcases insertAll_valueAt_mem h hs with h1 | h1
    · simp at h1
    · exact ⟨s, h1⟩
  · rintro ⟨s, hs⟩
    exact insertAll_valued_of_mem h hs

/-- If no later entry reuses the codeword `q`, the batch does not disturb the
value at `q`. -/
theorem insertAll_valueAt_untouched {es : List (α × List β)} {q : List β} :
    ∀ {t T : TreeNode β α}, insertAll t es = some T →
      (∀ e ∈ es, e.2 ≠ q) → valueAt T q = valueAt t q := by
  induction es with
  | nil =>
    intro t T h _
    simp [insertAll] at h
    exact h ▸ rfl
  | cons e rest ih =>
    intro t T h hne
    obtain ⟨s0, c0⟩ := e
    simp only [insertAll] at h
    by_cases hok : (insertCode t c0 s0).2 <;> simp [hok] at h
    rw [ih h (fun e he => hne e (List.mem_cons_of_mem _ he)),
      insertCode_ok_valueAt c0 t s0 hok q,
      if_neg (fun hq : q = c0 => hne (s0, c0) (by simp) hq.symm)]

/-- Precise value characterisation when no codeword repeats. -/
theorem insertAll_valueAt_of_mem_nodup {es : List (α × List β)} {s : α} {q : List β}
    (hnd : (es.map Prod.snd).Nodup) :
    ∀ {t T : TreeNode β α}, insertAll t es = some T →
      (s, q) ∈ es → valueAt T q = some s := by
  induction es with
  | nil =>
    intro t T _ hm
    simp at hm
  | cons e rest ih =>
    intro t T h hm
    obtain ⟨s0, c0⟩ := e
    simp only [insertAll] at h
    by_cases hok : (insertCode t c0 s0).2 <;> simp [hok] at h
    simp only [List.map_cons, List.nodup_cons] at hnd
    rcases List.mem_cons.1 hm with h1 | h1
    · cases h1
      rw [insertAll_valueAt_untouched h
        (fun e he (hq : e.2 = q) => hnd.1 (hq ▸ List.mem_map.2 ⟨e, he, rfl⟩)),
        insertCode_ok_valueAt _ t _ hok q]
      simp
    · exact ih hnd.2 h h1

/-- Characterisation of the positions with children in a tree built by a
successful batch of insertions into a fresh tree. -/
theorem insertAll_kids_iff {es : List (α × List β)} {q : List β} :
    ∀ {t T : TreeNode β α}, insertAll t es = some T →
      (kidsAt T q = true ↔ kidsAt t q = true ∨ ∃ e ∈ es, q <+: e.2 ∧ q ≠ e.2) := by
  induction es with
  | nil =>
    intro t T h
    simp [insertAll] at h
    subst h
    simp
  | cons e rest ih =>
    intro t T h
    obtain ⟨s0, c0⟩ := e
    simp only [insertAll] at h
    by_cases hok : (insertCode t c0 s0).2 <;> simp [hok] at h
    rw [ih h]
    rw [insertCode_ok_kidsAt c0 t s0 hok q]
    constructor
    · rintro (hk | hk)
      · rcases Bool.or_eq_true_iff.1 hk with hk' | hk'
        · exact Or.inl hk'
        · have := of_decide_eq_true hk'
          exact Or.inr ⟨(s0, c0), by simp, this⟩
      · obtain ⟨e, he, hp⟩ := hk
        exact Or.inr ⟨e, List.mem_cons_of_mem _ he, hp⟩
    · rintro (hk | hk)
      · exact Or.inl (by simp [hk])
      · obtain ⟨e, he, hp⟩ := hk
        rcases List.mem_cons.1 he with h1 | h1
        · subst h1
          exact Or.inl (by simp [hp])
        · exact Or.inr ⟨e, h1, hp⟩

/-- A single successful insertion preserves the non-root structural
invariant. -/
theorem insertCode_properBelow {c : List β} {t : TreeNode β α} {s : α}
    (hok : (insertCode t c s).2 = true) (hg : properBelow t) :
    properBelow (insertCode t c s).1 := by
  intro q hne hv
  rw [insertCode_ok_valueAt c t s hok q] at hv
  rw [insertCode_ok_kidsAt c t s hok q]
  by_cases hq : q = c
  · rw [hq, insertCode_ok_no_kids c t s hok]
    simp
  · rw [if_neg hq] at hv
    have h1 : kidsAt t q = false := hg q hne hv
    have h2 : ¬ (q <+: c ∧ q ≠ c) := by
      rintro ⟨hp, -⟩
      rw [insertCode_ok_no_valued c t s hok q hne hp] at hv
      simp at hv
    simp [h1, h2]

/-- C3 core: all trees built by successful insertions into a fresh tree
satisfy the invariant below the root. -/
theorem insertAll_properBelow {es : List (α × List β)} :
    ∀ {t T : TreeNode β α}, insertAll t es = some T → properBelow t → properBelow T := by
  induction es with
  | nil =>
    intro t T h hg
    simp [insertAll] at h
    exact h ▸ hg
  | cons e rest ih =>
    intro t T h hg
    obtain ⟨s0, c0⟩ := e
    simp only [insertAll] at h
    by_cases hok : (insertCode t c0 s0).2 <;> simp [hok] at h
    exact ih h (insertCode_properBelow hok hg)

theorem properBelow_fresh : properBelow (freshNode : TreeNode β α) := by
  intro q hne hv
  simp at hv

/-- C2 core: exact characterisation of when `insert_code` raises on an
arbitrary tree: some non-empty prefix of the codeword (the codeword itself
included) reaches a valued node, or the landing position has children.  The
root's value is never consulted. -/
theorem insertCode_fail_iff :
    ∀ (c : List β) (t : TreeNode β α) (s : α),
      (insertCode t c s).2 = false ↔
        (∃ q : List β, q ≠ [] ∧ q <+: c ∧ (valueAt t q).isSome) ∨ kidsAt t c = true
  | [], .mk v ch, s => by
    constructor
    · intro hfail
      have hch : ch.isEmpty = false := by
        by_contra h
        simp at h
        simp [insertCode, h] at hfail
      exact Or.inr (by simp [hch])
    · rintro (⟨q, hne, hpre, -⟩ | hk)
      · exact absurd (List.prefix_nil.1 hpre) hne
      · simp only [kidsAt_nil, TreeNode.children_mk, Bool.not_eq_eq_eq_not,
          Bool.not_true] at hk
        simp [insertCode, hk]
  | b :: r, .mk v ch, s => by
    cases hck : alookup b ch with
    | none =>
      have hok : (insertCode (freshNode : TreeNode β α) r s).2 = true :=
        insertCode_fresh_ok r s
      constructor
      · intro hfail
        simp [insertCode, hck, hok] at hfail
      · rintro (⟨q, hne, hpre, hval⟩ | hk)
        · cases q with
          | nil => exact absurd rfl hne
          | cons b' q' =>
            have hb : b' = b := (List.cons_prefix_cons.1 hpre).1
            subst hb
            rw [valueAt_cons] at hval
            simp [hck] at hval
        · rw [kidsAt_cons] at hk
          simp [hck] at hk
    | some child =>
      by_cases hv : child.value.isSome
      · constructor
        · intro _
          refine Or.inl ⟨[b], by simp, by simp, ?_⟩
          rw [valueAt_cons]
          simpa [hck] using hv
        · intro _
          simp [insertCode, hck, hv]
      · have ihiff := insertCode_fail_iff r child s
        constructor
        · intro hfail
          simp only [insertCode, hck, hv, Bool.false_eq_true, if_false] at hfail
          rcases ihiff.1 hfail with ⟨q', hne', hpre', hval'⟩ | hk
          · refine Or.inl ⟨b :: q', by simp, List.cons_prefix_cons.2 ⟨rfl, hpre'⟩, ?_⟩
            rw [valueAt_cons]
            simpa [hck] using hval'
          · refine Or.inr ?_
            rw [kidsAt_cons]
            simpa [hck] using hk
        · intro hdis
          simp only [insertCode, hck, hv, Bool.false_eq_true, if_false]
          refine ihiff.2 ?_
          rcases hdis with ⟨q, hne, hpre, hval⟩ | hk
          · cases q with
            | nil => exact absurd rfl hne
            | cons b' q' =>
              have hb : b' = b := (List.cons_prefix_cons.1 hpre).1
              have hpre' : q' <+: r := (List.cons_prefix_cons.1 hpre).2
              subst hb
              rw [valueAt_cons] at hval
              simp only [TreeNode.children_mk, hck] at hval
              cases q' with
              | nil => exact absurd (by simpa using hval) hv
              | cons b'' q'' => exact Or.inl ⟨b'' :: q'', by simp, hpre', hval⟩
          · rw [kidsAt_cons] at hk
            simp only [TreeNode.children_mk, hck] at hk
            exact Or.inr hk

end InsertAllLemmas

/-! ### Decoding lemmas -/

section DecodeLemmas

variable {β α : Type} [DecidableEq β]

theorem alookup_some_not_nil {κ ν : Type} [DecidableEq κ] {k : κ} {v : ν}
    {l : List (κ × ν)} (h : alookup k l = some v) : l.isEmpty = false := by
  cases l with
  | nil => simp at h
  | cons p rest => rfl

theorem drop_cons_split {γ : Type} {seq : List γ} {pos : Nat} {x : γ} {xs : List γ}
    (h : seq.drop pos = x :: xs) : seq[pos]? = some x ∧ seq.drop (pos + 1) = xs := by
  constructor
  · have h0 : (seq.drop pos)[0]? = some x := by rw [h]; simp
    rw [List.getElem?_drop] at h0
    simpa using h0
  · have h1 : (seq.drop pos).drop 1 = xs := by rw [h]; simp
    rw [List.drop_drop] at h1
    simpa [Nat.add_comm] using h1

/-- Walking a codeword that reaches a childless node consumes exactly the
codeword and reports that node's value. -/
theorem decodeFrom_on_code :
    ∀ (c : List β) (t n : TreeNode β α) (rest seq : List β) (pos fuel : Nat),
      findPath t c = some n → n.children = [] → seq.drop pos = c ++ rest →
      c.length < fuel →
      decodeFrom fuel t seq pos = .ok (n.value, pos + c.length)
  | [], t, n, rest, seq, pos, fuel => by
    intro hfp hleaf hdrop hfuel
    cases fuel with
    | zero => omega
    | succ f =>
      have ht : some t = some n := hfp
      obtain rfl := Option.some.inj ht
      simp [decodeFrom, hleaf]
  | b :: c', t, n, rest, seq, pos, fuel => by
    intro hfp hleaf hdrop hfuel
    rw [findPath_cons] at hfp
    cases hck : alookup b t.children with
    | none => simp [hck] at hfp
    | some child =>
      rw [hck] at hfp
      simp only [Option.some_bind] at hfp
      cases fuel with
      | zero => omega
      | succ f =>
        obtain ⟨hget, hdrop'⟩ := drop_cons_split (by simpa using hdrop)
        have hne := alookup_some_not_nil hck
        simp only [decodeFrom, hne, Bool.false_eq_true, if_false, hget, hck]
        rw [decodeFrom_on_code c' child n rest seq (pos + 1) f hfp hleaf hdrop'
          (by simpa using Nat.lt_of_succ_lt_succ hfuel)]
        have heq : pos + 1 + c'.length = pos + (b :: c').length := by
          simp
          omega
        rw [heq]

/-- `treeDecode` on a full codeword landing on a childless node. -/
theorem treeDecode_on_code {c : List β} {t n : TreeNode β α} {rest seq : List β}
    {pos : Nat} (hfp : findPath t c = some n) (hleaf : n.children = [])
    (hdrop : seq.drop pos = c ++ rest) :
    treeDecode t seq pos = .ok (n.value, pos + c.length) := by
  have hlen : seq.length - pos = c.length + rest.length := by
    have := congrArg List.length hdrop
    simpa using this
  exact decodeFrom_on_code c t n rest seq pos _ hfp hleaf hdrop (by omega)

/-- A successful tree-decode step either started at a childless root and did
not move, or strictly advanced the position without running off the end. -/
theorem decodeFrom_ok_bounds :
    ∀ (fuel : Nat) (t : TreeNode β α) (seq : List β) (pos : Nat) (r : Option α)
      (p' : Nat), decodeFrom fuel t seq pos = .ok (r, p') →
      (t.children = [] ∧ p' = pos) ∨ (pos < p' ∧ p' ≤ seq.length) := by
  intro fuel
  induction fuel with
  | zero => intro t seq pos r p' h; simp [decodeFrom] at h
  | succ f ih =>
    intro t seq pos r p' h
    simp only [decodeFrom] at h
    by_cases hch : t.children.isEmpty = true
    · rw [if_pos hch] at h
      simp at h
      exact Or.inl ⟨by simpa using hch, h.2.symm⟩
    · rw [if_neg hch] at h
      cases hget : seq[pos]? with
      | none => simp only [hget] at h; simp at h
      | some b =>
        simp only [hget] at h
        have hpos : pos < seq.length := by
          by_contra hge
          rw [List.getElem?_eq_none (by omega)] at hget
          simp at hget
        cases hck : alookup b t.children with
        | none => simp only [hck] at h; simp at h
        | some child =>
          simp only [hck] at h
          rcases ih child seq (pos + 1) r p' h with ⟨-, h2⟩ | ⟨h1, h2⟩
          · exact Or.inr ⟨by omega, by omega⟩
          · exact Or.inr ⟨by omega, h2⟩

/-- Messages are no longer than their encodings when all codewords are
non-empty. -/
theorem encodeGo_length_ge {tb : List (α × List β)} [DecidableEq α]
    (hne : ∀ x c, alookup x tb = some c → c ≠ []) :
    ∀ (m : List α) (enc : List β), encodeGo tb m = .ok enc → m.length ≤ enc.length := by
  intro m
  induction m with
  | nil => intro enc h; simp
  | cons x m' ih =>
    intro enc h
    cases hck : alookup x tb with
    | none => rw [encodeGo, hck] at h; simp at h
    | some c =>
      rw [encodeGo, hck] at h
      cases hrest : encodeGo tb m' with
      | error e => rw [hrest] at h; simp at h
      | ok rest =>
        rw [hrest] at h
        simp only [Except.ok.injEq] at h
        subst h
        have hc : c ≠ [] := hne x c hck
        have : 1 ≤ c.length := by
          cases c with
          | nil => exact absurd rfl hc
          | cons a l => simp
        have := ih rest hrest
        simp
        omega

/-- The decoding loop inverts the encoding loop: if every table codeword is
non-empty and leads to a childless node holding its symbol, then decoding the
concatenated codewords of a message returns exactly that message. -/
theorem decodeLoop_roundtrip [DecidableEq α] {T : TreeNode β α} {tb : List (α × List β)}
    (hIs : ∀ x c, alookup x tb = some c → c ≠ [] ∧ leafAt T c x) :
    ∀ (m : List α) (fuel : Nat) (seq : List β) (pos : Nat) (acc : List α)
      (enc : List β), m.length < fuel → encodeGo tb m = .ok enc →
      seq.drop pos = enc →
      decodeLoop fuel T seq pos acc = some (.ok (acc ++ m)) := by
  intro m
  induction m with
  | nil =>
    intro fuel seq pos acc enc hfuel henc hdrop
    simp [encodeGo] at henc
    subst henc
    have hpos : ¬ pos < seq.length := by
      have := congrArg List.length hdrop
      simp at this
      omega
    cases fuel with
    | zero => omega
    | succ f => simp [decodeLoop, hpos]
  | cons x m' ih =>
    intro fuel seq pos acc enc hfuel henc hdrop
    cases hck : alookup x tb with
    | none => rw [encodeGo, hck] at henc; simp at henc
    | some c =>
      rw [encodeGo, hck] at henc
      cases hrest : encodeGo tb m' with
      | error e => rw [hrest] at henc; simp at henc
      | ok rest =>
        rw [hrest] at henc
        simp only [Except.ok.injEq] at henc
        subst henc
        obtain ⟨hcne, n, hfp, hval, hleaf⟩ := hIs x c hck
        have hpos : pos < seq.length := by
          have := congrArg List.length hdrop
          simp at this
          have : 1 ≤ c.length := by
            cases c with
            | nil => exact absurd rfl hcne
            | cons a l => simp
          omega
        have hstep : treeDecode T seq pos = .ok (some x, pos + c.length) := by
          rw [treeDecode_on_code hfp hleaf hdrop, hval]
        cases fuel with
        | zero => omega
        | succ f =>
          rw [decodeLoop, if_pos hpos, hstep]
          simp only
          have hdrop2 : seq.drop (pos + c.length) = rest := by
            rw [← List.drop_drop, hdrop]
            · simp
          have := ih f seq (pos + c.length) (acc ++ [x]) rest
            (by simp at hfuel; omega) hrest hdrop2
          simpa using this

/-- C10 core: when the root carries no value, the decoding loop terminates
(returns or raises) within `seq.length - pos + 1` iterations. -/
theorem decodeLoop_total [DecidableEq α] {T : TreeNode β α} (hroot : T.value = none) :
    ∀ (fuel : Nat) (seq : List β) (pos : Nat) (acc : List α),
      seq.length - pos < fuel → (decodeLoop fuel T seq pos acc).isSome := by
  intro fuel
  induction fuel with
  | zero => intro seq pos acc h; omega
  | succ f ih =>
    intro seq pos acc h
    simp only [decodeLoop]
    by_cases hpos : pos < seq.length
    · rw [if_pos hpos]
      cases hdec : treeDecode T seq pos with
      | error e => simp
      | ok r =>
        obtain ⟨ov, p'⟩ := r
        cases ov with
        | none => simp
        | some s =>
          simp only
          rcases decodeFrom_ok_bounds _ T seq pos _ p' hdec with ⟨hch, hpp⟩ | ⟨h1, h2⟩
          · exfalso
            have hT : treeDecode T seq pos = .ok (T.value, pos) := by
              simp [treeDecode, decodeFrom, hch]
            rw [hT, hroot] at hdec
            simp at hdec
          · exact ih seq p' (acc ++ [s]) (by omega)
    · rw [if_neg hpos]
      simp

end DecodeLemmas

/-! ### The rebuilt table and the round-trip core -/

section TableLemmas

variable {β α : Type} [DecidableEq β]

theorem alookup_none_of_not_mem {κ ν : Type} [DecidableEq κ] {k : κ}
    {l : List (κ × ν)} (h : k ∉ akeys l) : alookup k l = none := by
  cases hl : alookup k l with
  | none => rfl
  | some v =>
    exact absurd ((alookup_isSome_iff_mem_akeys k l).1 (by simp [hl])) h

/-- Membership in the writes performed on a children dict by the pre-order
collection. -/
theorem mem_entriesList {x : α} :
    ∀ (ch : List (β × TreeNode β α)), (akeys ch).Nodup →
      (∀ p ∈ ch, ∀ pre q,
        ((x, q) ∈ entriesOf p.2 pre ↔ ∃ q', q = pre ++ q' ∧ valueAt p.2 q' = some x)) →
      ∀ (pre q : List β),
        ((x, q) ∈ entriesOf.entriesList ch pre ↔
          ∃ b q'', q = pre ++ b :: q'' ∧
            (match alookup b ch with
             | some child => valueAt child q''
             | none => none) = some x) := by
  intro ch
  induction ch with
  | nil =>
    intro _ _ pre q
    simp [entriesOf.entriesList]
  | cons p rest ihl =>
    intro hnd hall pre q
    obtain ⟨b0, c0⟩ := p
    simp only [akeys, List.map_cons, List.nodup_cons] at hnd
    have hnd' : (akeys rest).Nodup := by simpa [akeys] using hnd.2
    have hall' : ∀ p ∈ rest, ∀ pre q,
        ((x, q) ∈ entriesOf p.2 pre ↔ ∃ q', q = pre ++ q' ∧ valueAt p.2 q' = some x) :=
      fun p hp => hall p (List.mem_cons_of_mem _ hp)
    rw [entriesOf.entriesList]
    rw [List.mem_append]
    rw [hall (b0, c0) (by simp) (pre ++ [b0]) q]
    rw [ihl hnd' hall' pre q]
    constructor
    · rintro (⟨q'', hq, hval⟩ | ⟨b, q'', hq, hval⟩)
      · refine ⟨b0, q'', by simpa [List.append_assoc] using hq, ?_⟩
        simp [alookup, hval]
      · have hb : b0 ≠ b := by
          rintro rfl
          rw [alookup_none_of_not_mem (by simpa [akeys] using hnd.1)] at hval
          simp at hval
        refine ⟨b, q'', hq, ?_⟩
        simpa [alookup, hb] using hval
    · rintro ⟨b, q'', hq, hval⟩
      by_cases hb : b0 = b
      · subst hb
        simp only [alookup, if_pos rfl] at hval
        exact Or.inl ⟨q'', by simpa [List.append_assoc] using hq, hval⟩
      · simp only [alookup, if_neg hb] at hval
        exact Or.inr ⟨b, q'', hq, hval⟩

/-- The pre-order collection writes exactly the pairs `(value, path)` of the
valued nodes of the tree. -/
theorem mem_entriesOf {x : α} :
    ∀ (t : TreeNode β α), KeysOk t → ∀ (pre q : List β),
      ((x, q) ∈ entriesOf t pre ↔ ∃ q', q = pre ++ q' ∧ valueAt t q' = some x) := by
  refine treeInd ?_
  intro v ch ihch hk pre q
  cases hk with
  | mk hnd hallk =>
    have hall : ∀ p ∈ ch, ∀ pre q,
        ((x, q) ∈ entriesOf p.2 pre ↔ ∃ q', q = pre ++ q' ∧ valueAt p.2 q' = some x) :=
      fun p hp => ihch p hp (hallk p hp)
    simp only [entriesOf.eq_def]
    rw [List.mem_append]
    rw [mem_entriesList ch hnd hall pre q]
    constructor
    · rintro (hv | ⟨b, q'', hq, hval⟩)
      · refine ⟨[], ?_⟩
        cases hvv : v with
        | none => rw [hvv] at hv; simp at hv
        | some s =>
          rw [hvv] at hv
          simp at hv
          obtain ⟨rfl, rfl⟩ := hv
          simp [hvv]
      · refine ⟨b :: q'', hq, ?_⟩
        rw [valueAt_cons]
        simpa using hval
    · rintro ⟨q', hq, hval⟩
      cases q' with
      | nil =>
        refine Or.inl ?_
        simp only [valueAt_nil, TreeNode.value_mk] at hval
        rw [hval]
        simp [hq]
      | cons b q'' =>
        refine Or.inr ⟨b, q'', hq, ?_⟩
        rw [valueAt_cons] at hval
        simpa using hval

theorem akeys_fromList_nodup {κ ν : Type} [DecidableEq κ] (l : List (κ × ν)) :
    (akeys (fromList l)).Nodup := by
  suffices H : ∀ acc : List (κ × ν), (akeys acc).Nodup →
      (akeys (l.foldl (fun acc p => aupd p.1 p.2 acc) acc)).Nodup by
    exact H [] (by simp [akeys])
  induction l with
  | nil => intro acc h; simpa using h
  | cons p rest ih =>
    intro acc h
    exact ih (aupd p.1 p.2 acc) (akeys_aupd_nodup h)

theorem mem_akeys_aupd {κ ν : Type} [DecidableEq κ] {k k0 : κ} {v : ν}
    {l : List (κ × ν)} : k ∈ akeys (aupd k0 v l) ↔ k ∈ akeys l ∨ k = k0 := by
  rw [akeys_aupd]
  by_cases hmem : k0 ∈ akeys l
  · rw [if_pos hmem]
    constructor
    · exact Or.inl
    · rintro (h | rfl)
      · exact h
      · exact hmem
  · rw [if_neg hmem]
    simp

theorem mem_akeys_fromList {κ ν : Type} [DecidableEq κ] {l : List (κ × ν)} {k : κ} :
    k ∈ akeys (fromList l) ↔ k ∈ akeys l := by
  suffices H : ∀ acc : List (κ × ν),
      (k ∈ akeys (l.foldl (fun acc p => aupd p.1 p.2 acc) acc) ↔
        k ∈ akeys acc ∨ k ∈ akeys l) by
    have := H []
    simpa [akeys] using this
  induction l with
  | nil => intro acc; simp [akeys]
  | cons p rest ih =>
    intro acc
    rw [List.foldl_cons, ih (aupd p.1 p.2 acc)]
    rw [mem_akeys_aupd]
    constructor
    · rintro ((h | h) | h)
      · exact Or.inl h
      · exact Or.inr (by simp [akeys, h])
      · exact Or.inr (by simp [akeys]; exact Or.inr (by simpa [akeys] using h))
    · rintro (h | h)
      · exact Or.inl (Or.inl h)
      · rcases (by simpa [akeys] using h : k = p.1 ∨ k ∈ akeys rest) with h' | h'
        · exact Or.inl (Or.inr h')
        · exact Or.inr (by simpa [akeys] using h')

/-- Every entry of the rebuilt code table with a non-empty codeword leads to
a value-holding leaf of the tree. -/
theorem tableFromTree_leafAt [DecidableEq α] {es : List (α × List β)}
    {T : TreeNode β α} (hT : insertAll freshNode es = some T) {x : α} {c : List β}
    (hmem : (x, c) ∈ tableFromTree T) (hcne : c ≠ []) : leafAt T c x := by
  have hk : KeysOk T := insertAll_keysOk hT keysOk_fresh
  have hg : properBelow T := insertAll_properBelow hT properBelow_fresh
  have hent : (x, c) ∈ entriesOf T [] := mem_fromList hmem
  have hval : valueAt T c = some x := by
    obtain ⟨q', hq, hv⟩ := (mem_entriesOf T hk [] c).1 hent
    simpa [hq] using hv
  have hkids : kidsAt T c = false := hg c hcne (by simp [hval])
  unfold valueAt at hval
  unfold kidsAt at hkids
  cases hfp : findPath T c with
  | none => rw [hfp] at hval; simp at hval
  | some n =>
    rw [hfp] at hval hkids
    refine ⟨n, hfp, hval, ?_⟩
    simpa using hkids

/-- Round-trip core: a coder whose tree was built by successful insertions
and whose (rebuilt) code table has only non-empty codewords decodes every
encoding back to the original message. -/
theorem coder_roundtrip_core [DecidableEq α] {es tb : List (α × List β)}
    {T : TreeNode β α} (hT : insertAll freshNode es = some T)
    (htb : tb = tableFromTree T) (hne : ∀ p ∈ tb, p.2 ≠ ([] : List β))
    {m : List α} {enc : List β} (henc : pedEncode tb m = .ok enc) :
    decodeRun T enc = some (.ok m) := by
  have htbne : tb.isEmpty = false := by
    by_contra h
    simp only [Bool.not_eq_false] at h
    simp [pedEncode, h] at henc
  rw [pedEncode, htbne] at henc
  simp only [Bool.false_eq_true, if_false] at henc
  have hIs : ∀ x c, alookup x tb = some c → c ≠ [] ∧ leafAt T c x := by
    intro x c hck
    have hmem := alookup_mem hck
    have hcne := hne (x, c) hmem
    exact ⟨hcne, tableFromTree_leafAt hT (htb ▸ hmem) hcne⟩
  have hlen : m.length ≤ enc.length :=
    encodeGo_length_ge (fun x c hck => (hIs x c hck).1) m enc henc
  exact decodeLoop_roundtrip hIs m (enc.length + 1) enc 0 [] enc (by omega) henc (by simp)

end TableLemmas

/-! ### Node-existence characterisation and prefix-free tables -/

section ExistenceLemmas

variable {β α : Type} [DecidableEq β]

/-- Existence equation for a successful insertion: exactly the positions
along the inserted codeword are created. -/
theorem insertCode_ok_nodeEx :
    ∀ (c : List β) (t : TreeNode β α) (s : α),
      (insertCode t c s).2 = true → ∀ q : List β,
        (findPath (insertCode t c s).1 q).isSome =
          ((findPath t q).isSome || decide (q <+: c))
  | [], .mk v ch, s => by
    intro hok q
    have hch : ch.isEmpty = true := by
      by_contra h
      simp [insertCode, h] at hok
    have hch' : ch = [] := by simpa using hch
    subst hch'
    cases q with
    | nil => simp [insertCode]
    | cons b r => simp [insertCode, findPath_cons, alookup]
  | b :: r, .mk v ch, s => by
    intro hok q
    cases hck : alookup b ch with
    | some child =>
      by_cases hv : child.value.isSome
      · simp [insertCode, hck, hv] at hok
      · simp only [insertCode, hck, hv, Bool.false_eq_true, if_false] at hok ⊢
        cases q with
        | nil => simp
        | cons b' q' =>
          by_cases hb : b' = b
          · subst hb
            have hrec := insertCode_ok_nodeEx r child s hok q'
            simp only [findPath_cons, TreeNode.children_mk, alookup_aupd_self, hck,
              Option.some_bind]
            rw [hrec]
            simp [List.cons_prefix_cons]
          · simp [findPath_cons, alookup_aupd_ne (fun e => hb e) _ ch, hck, hb,
              List.cons_prefix_cons]
    | none =>
      simp only [insertCode, hck] at hok ⊢
      cases q with
      | nil => simp
      | cons b' q' =>
        by_cases hb : b' = b
        · subst hb
          simp only [findPath_cons, TreeNode.children_mk, alookup_aupd_self, hck,
            Option.some_bind, Option.none_bind]
          rw [insertCode_ok_nodeEx r freshNode s hok q']
          cases q' with
          | nil => simp
          | cons b'' q'' =>
            simp [findPath_cons, freshNode, alookup, List.cons_prefix_cons]
        · simp [findPath_cons, alookup_aupd_ne (fun e => hb e) _ ch, hck, hb,
            List.cons_prefix_cons]

/-- Positions existing in a tree built by a successful batch of insertions
into a fresh tree are exactly the root and the prefixes of inserted
codewords. -/
theorem insertAll_nodeEx_iff {es : List (α × List β)} {q : List β} :
    ∀ {t T : TreeNode β α}, insertAll t es = some T →
      ((findPath T q).isSome ↔ (findPath t q).isSome ∨ ∃ e ∈ es, q <+: e.2) := by
  induction es with
  | nil =>
    intro t T h
    simp [insertAll] at h
    subst h
    simp
  | cons e rest ih =>
    intro t T h
    obtain ⟨s0, c0⟩ := e
    simp only [insertAll] at h
    by_cases hok : (insertCode t c0 s0).2 <;> simp [hok] at h
    rw [ih h]
    rw [insertCode_ok_nodeEx c0 t s0 hok q]
    constructor
    · rintro (hk | hk)
      · rcases Bool.or_eq_true_iff.1 hk with hk' | hk'
        · exact Or.inl hk'
        · exact Or.inr ⟨(s0, c0), by simp, of_decide_eq_true hk'⟩
      · obtain ⟨e, he, hp⟩ := hk
        exact Or.inr ⟨e, List.mem_cons_of_mem _ he, hp⟩
    · rintro (hk | hk)
      · exact Or.inl (by simp [hk])
      · obtain ⟨e, he, hp⟩ := hk
        rcases List.mem_cons.1 he with h1 | h1
        · subst h1
          exact Or.inl (by simp [hp])
        · exact Or.inr ⟨e, h1, hp⟩

theorem insertAll_append {l1 l2 : List (α × List β)} :
    ∀ (t : TreeNode β α), insertAll t (l1 ++ l2) =
      (insertAll t l1).bind (fun t1 => insertAll t1 l2) := by
  induction l1 with
  | nil => intro t; simp [insertAll]
  | cons e rest ih =>
    intro t
    obtain ⟨s, c⟩ := e
    simp only [List.cons_append, insertAll]
    by_cases hok : (insertCode t c s).2 <;> simp [hok, ih]

/-- A pairwise prefix-free table inserts without conflicts. -/
theorem insertAll_ok_of_pairwise {es : List (α × List β)}
    (hpf : es.Pairwise (fun a b => ¬a.2 <+: b.2 ∧ ¬b.2 <+: a.2)) :
    ∃ T : TreeNode β α, insertAll freshNode es = some T := by
  suffices H : ∀ rest prev (T0 : TreeNode β α),
      (prev ++ rest).Pairwise (fun a b => ¬a.2 <+: b.2 ∧ ¬b.2 <+: a.2) →
      insertAll freshNode prev = some T0 →
      ∃ T, insertAll T0 rest = some T by
    obtain ⟨T, hT⟩ := H es [] freshNode (by simpa using hpf) (by simp [insertAll])
    exact ⟨T, hT⟩
  intro rest
  induction rest with
  | nil =>
    intro prev T0 _ _
    exact ⟨T0, by simp [insertAll]⟩
  | cons e rest' ih =>
    intro prev T0 hpw hprev
    obtain ⟨s, c⟩ := e
    have hcross : ∀ a ∈ prev, ¬a.2 <+: c ∧ ¬c <+: a.2 := by
      rcases List.pairwise_append.1 hpw with ⟨-, -, hc⟩
      intro a ha
      exact hc a ha (s, c) (by simp)
    have hok : (insertCode T0 c s).2 = true := by
      by_contra hfail
      rw [Bool.not_eq_true] at hfail
      rcases (insertCode_fail_iff c T0 s).1 hfail with ⟨q, hne, hpre, hval⟩ | hkids
      · obtain ⟨s', hmem⟩ := (insertAll_valued_iff hprev).1 hval
        exact (hcross (s', q) hmem).1 hpre
      · rcases (insertAll_kids_iff hprev).1 hkids with hfk | ⟨e, he, hp, -⟩
        · simp at hfk
        · exact (hcross e he).2 hp
    have hnext : insertAll freshNode (prev ++ [(s, c)]) = some (insertCode T0 c s).1 := by
      rw [insertAll_append freshNode, hprev]
      simp [insertAll, hok]
    have hpw' : ((prev ++ [(s, c)]) ++ rest').Pairwise
        (fun a b => ¬a.2 <+: b.2 ∧ ¬b.2 <+: a.2) := by
      rw [List.append_assoc]
      simpa using hpw
    obtain ⟨T, hT⟩ := ih (prev ++ [(s, c)]) (insertCode T0 c s).1 hpw' hnext
    refine ⟨T, ?_⟩
    simp only [insertAll, hok, if_true]
    exact hT

end ExistenceLemmas

/-! ### Claim theorems for the tree and the base coder -/

section TreeClaims

variable {β α : Type} [DecidableEq β]

theorem pairwise_snd_nodup {es : List (α × List β)}
    (hpf : es.Pairwise (fun a b => ¬a.2 <+: b.2 ∧ ¬b.2 <+: a.2)) :
    (es.map Prod.snd).Nodup := by
  rw [List.Nodup, List.pairwise_map]
  refine hpf.imp ?_
  intro a b hab heq
  exact hab.1 (heq ▸ List.prefix_refl _)

/-- C9: insertion is atomic on failure — when `insert_code` raises a prefix
conflict, the tree after the call is identical to the tree before it. -/
theorem claim_C9 (t : TreeNode β α) (c : List β) (s : α)
    (h : (insertCode t c s).2 = false) : (insertCode t c s).1 = t :=
  insertCode_fail_eq c t s h

/-- Witness for C9 at a concrete input: inserting the codeword `[0]` a second
time raises, and the tree is unchanged. -/
theorem claim_C9_witness :
    (insertCode (TreeNode.mk none [(0, TreeNode.mk (some 5) [])] : TreeNode Nat Nat)
        [0] 6).2 = false ∧
      (insertCode (TreeNode.mk none [(0, TreeNode.mk (some 5) [])] : TreeNode Nat Nat)
          [0] 6).1 =
        TreeNode.mk none [(0, TreeNode.mk (some 5) [])] :=
  ⟨rfl, claim_C9 _ [0] 6 rfl⟩

/-- Counterexample to C2 as stated.  First: after inserting the empty
codeword, inserting `[0]` succeeds even though the empty codeword is a proper
prefix of `[0]` (the claim demands a `PrefixConflict`).  Second: after
inserting `[0]`, inserting `[0]` again fails even though neither codeword is
a proper prefix of the other (the claim demands success). -/
theorem claim_C2_counterexample :
    (insertCode (freshNode : TreeNode Nat Nat) [] 7).2 = true ∧
      (insertCode (insertCode (freshNode : TreeNode Nat Nat) [] 7).1 [0] 8).2 = true ∧
      (([] : List Nat) <+: [0] ∧ ([] : List Nat) ≠ [0]) ∧
      (insertCode (freshNode : TreeNode Nat Nat) [0] 7).2 = true ∧
      (insertCode (insertCode (freshNode : TreeNode Nat Nat) [0] 7).1 [0] 8).2 = false ∧
      ¬(([0] : List Nat) <+: [0] ∧ ([0] : List Nat) ≠ [0]) := by
  refine ⟨rfl, rfl, ⟨⟨[0], rfl⟩, by simp⟩, rfl, rfl, ?_⟩
  simp

/-- C2 amended: on a tree built by successful insertions, `insert_code`
fails exactly when some already-inserted non-empty codeword is a (not
necessarily proper) prefix of the new codeword, or the new codeword is a
proper prefix of some already-inserted codeword.  (A previously inserted
empty codeword never triggers a conflict, and inserting a duplicate of a
non-empty codeword does.) -/
theorem claim_C2 (es : List (α × List β)) (T : TreeNode β α)
    (h : insertAll freshNode es = some T) (c : List β) (s : α) :
    ((insertCode T c s).2 = false ↔
      (∃ e ∈ es, e.2 ≠ [] ∧ e.2 <+: c) ∨ ∃ e ∈ es, c <+: e.2 ∧ c ≠ e.2) := by
  rw [insertCode_fail_iff]
  constructor
  · rintro (⟨q, hne, hpre, hval⟩ | hkids)
    · obtain ⟨s', hmem⟩ := (insertAll_valued_iff h).1 hval
      exact Or.inl ⟨(s', q), hmem, hne, hpre⟩
    · rcases (insertAll_kids_iff h).1 hkids with hf | ⟨e, he, hp, hne2⟩
      · simp at hf
      · exact Or.inr ⟨e, he, hp, hne2⟩
  · rintro (⟨e, he, hne2, hpre⟩ | ⟨e, he, hp, hne2⟩)
    · refine Or.inl ⟨e.2, hne2, hpre, ?_⟩
      exact insertAll_valued_of_mem h (show (e.1, e.2) ∈ es by simpa using he)
    · exact Or.inr ((insertAll_kids_iff h).2 (Or.inr ⟨e, he, hp, hne2⟩))

/-- Witness for the amended C2: with `[0]` inserted, inserting `[0, 1]`
raises, witnessed through the characterisation. -/
theorem claim_C2_witness :
    (∃ e ∈ [(5, [0])], e.2 ≠ ([] : List Nat) ∧ e.2 <+: [0, 1]) ∨
      ∃ e ∈ [(5, [0])], [0, 1] <+: e.2 ∧ [0, 1] ≠ e.2 :=
  (claim_C2 [(5, [0])] (TreeNode.mk none [(0, TreeNode.mk (some 5) [])]) (by rfl)
    [0, 1] 6).1 (by rfl)

/-- Counterexample to C3 as stated: inserting the empty codeword and then
`[0]` are both successful insertions from a fresh tree, and they leave the
root with a value and a child simultaneously. -/
theorem claim_C3_counterexample :
    insertAll (freshNode : TreeNode Nat Nat) [(7, []), (8, [0])] =
        some (TreeNode.mk (some 7) [(0, TreeNode.mk (some 8) [])]) ∧
      (TreeNode.mk (some 7) [(0, TreeNode.mk (some 8) [])] : TreeNode Nat Nat).value.isSome
        = true ∧
      (TreeNode.mk (some 7) [(0, TreeNode.mk (some 8) [])] : TreeNode Nat Nat).children
        ≠ [] := by
  refine ⟨rfl, rfl, ?_⟩
  simp

/-- C3 amended: in every tree reachable by successful insertions from a
fresh tree, every node other than the root satisfies the spec's invariant:
it is a leaf iff its value is set iff it has zero children, and it never has
both a value and children.  (The root can violate the invariant: a fresh
root is a valueless leaf, and a valued root can acquire children.) -/
theorem claim_C3 (es : List (α × List β)) (T : TreeNode β α)
    (h : insertAll freshNode es = some T) (q : List β) (hq : q ≠ [])
    (n : TreeNode β α) (hfp : findPath T q = some n) :
    (n.leaf = true ↔ n.value.isSome = true) ∧ (n.leaf = true ↔ n.children = []) ∧
      ¬(n.value.isSome = true ∧ n.children ≠ []) := by
  have hleaf_ch : n.leaf = true ↔ n.children = [] := by
    simp [TreeNode.leaf, List.isEmpty_iff]
  have hv_imp : n.value.isSome = true → n.children = [] := by
    intro hv
    have hval : (valueAt T q).isSome := by
      unfold valueAt
      rw [hfp]
      exact hv
    have hkids := insertAll_properBelow h properBelow_fresh q hq hval
    unfold kidsAt at hkids
    rw [hfp] at hkids
    simpa using hkids
  have hch_imp : n.children = [] → n.value.isSome = true := by
    intro hch
    have hex : (findPath T q).isSome := by simp [hfp]
    rcases (insertAll_nodeEx_iff h).1 hex with h1 | ⟨e, he, hp⟩
    · exfalso
      cases q with
      | nil => exact hq rfl
      | cons b r =>
        rw [findPath_cons] at h1
        simp [freshNode, alookup] at h1
    · by_cases heq : q = e.2
      · have hvq : (valueAt T q).isSome := by
          have hmem : (e.1, q) ∈ es := by
            rw [heq]
            simpa using he
          exact insertAll_valued_of_mem h hmem
        unfold valueAt at hvq
        rw [hfp] at hvq
        exact hvq
      · exfalso
        have hkq : kidsAt T q = true := (insertAll_kids_iff h).2 (Or.inr ⟨e, he, hp, heq⟩)
        unfold kidsAt at hkq
        rw [hfp] at hkq
        simp [hch] at hkq
  refine ⟨hleaf_ch.trans ⟨hch_imp, hv_imp⟩, hleaf_ch, ?_⟩
  rintro ⟨hv, hch⟩
  exact hch (hv_imp hv)

/-- Witness for the amended C3 at a concrete input. -/
theorem claim_C3_witness :
    ((TreeNode.mk none [(1, TreeNode.mk (some 6) [])] : TreeNode Nat Nat).leaf = true ↔
      (TreeNode.mk none [(1, TreeNode.mk (some 6) [])] : TreeNode Nat Nat).value.isSome
        = true) ∧
    ((TreeNode.mk none [(1, TreeNode.mk (some 6) [])] : TreeNode Nat Nat).leaf = true ↔
      (TreeNode.mk none [(1, TreeNode.mk (some 6) [])] : TreeNode Nat Nat).children = []) ∧
    ¬((TreeNode.mk none [(1, TreeNode.mk (some 6) [])] : TreeNode Nat Nat).value.isSome
        = true ∧
      (TreeNode.mk none [(1, TreeNode.mk (some 6) [])] : TreeNode Nat Nat).children ≠ []) :=
  claim_C3 [(5, [0]), (6, [1, 1])]
    (TreeNode.mk none
      [(0, TreeNode.mk (some 5) []), (1, TreeNode.mk none [(1, TreeNode.mk (some 6) [])])])
    (by rfl) [1] (by simp) _ (by rfl)

/-- Counterexample to C1 as stated: the coder built from the single-entry
table mapping symbol `7` to the empty codeword constructs successfully, its
rebuilt code table is the same single entry, yet `decode (encode [7]) = []`,
not `[7]`. -/
theorem claim_C1_counterexample :
    treeFromTable [(7, ([] : List Nat))] = some (TreeNode.mk (some 7) []) ∧
      tableFromTree (TreeNode.mk (some 7) [] : TreeNode Nat Nat) = [(7, [])] ∧
      pedEncode [(7, ([] : List Nat))] [7] = .ok [] ∧
      decodeRun (TreeNode.mk (some 7) [] : TreeNode Nat Nat) ([] : List Nat) =
        some (.ok []) ∧
      ([] : List Nat) ≠ [7] := by
  refine ⟨rfl, rfl, rfl, rfl, ?_⟩
  simp

/-- C1 amended: for every successfully constructed prefix coder whose
(rebuilt) code table contains only non-empty codewords, decoding the
encoding of a message returns the message. -/
theorem claim_C1 [DecidableEq α] (es : List (α × List β)) (T : TreeNode β α)
    (h : insertAll freshNode es = some T)
    (hne : ∀ p ∈ tableFromTree T, p.2 ≠ ([] : List β)) (m : List α) (enc : List β)
    (henc : pedEncode (tableFromTree T) m = .ok enc) :
    decodeRun T enc = some (.ok m) :=
  coder_roundtrip_core h rfl hne henc

/-- Witness for the amended C1: a three-codeword coder round-trips the
message `[1, 2, 3, 1]`. -/
theorem claim_C1_witness :
    decodeRun
        (TreeNode.mk none
          [(0, TreeNode.mk (some 1) []),
            (1, TreeNode.mk none [(0, TreeNode.mk (some 2) []), (1, TreeNode.mk (some 3) [])])]
          : TreeNode Nat Nat)
        [0, 1, 0, 1, 1, 0] = some (.ok [1, 2, 3, 1]) :=
  claim_C1 [(1, [0]), (2, [1, 0]), (3, [1, 1])]
    (TreeNode.mk none
      [(0, TreeNode.mk (some 1) []),
        (1, TreeNode.mk none [(0, TreeNode.mk (some 2) []), (1, TreeNode.mk (some 3) [])])])
    (by rfl) (by decide) [1, 2, 3, 1] [0, 1, 0, 1, 1, 0] (by rfl)

/-- C10: a successfully constructed coder whose code table has only
non-empty codewords decodes every finite input in finitely many steps
(returning a result or raising), and every tree-decode step made from a
position inside the input strictly advances the position. -/
theorem claim_C10 [DecidableEq α] (es : List (α × List β)) (T : TreeNode β α)
    (h : treeFromTable es = some T) (hne : ∀ p ∈ es, p.2 ≠ ([] : List β))
    (seq : List β) :
    (decodeRun T seq).isSome ∧
      ∀ (pos : Nat) (r : Option α × Nat), pos < seq.length →
        treeDecode T seq pos = .ok r → pos < r.2 := by
  have hEmpty : es.isEmpty = false := by
    by_contra hx
    simp only [Bool.not_eq_false] at hx
    simp [treeFromTable, hx] at h
  have hT : insertAll freshNode es = some T := by
    simpa [treeFromTable, hEmpty] using h
  have hroot : T.value = none := by
    cases hv : T.value with
    | none => rfl
    | some s =>
      have hvs : (valueAt T ([] : List β)).isSome = true := by
        simp [valueAt, hv]
      obtain ⟨s', hmem⟩ := (insertAll_valued_iff hT).1 hvs
      exact absurd rfl (hne _ hmem)
  constructor
  · exact decodeLoop_total hroot (seq.length + 1) seq 0 [] (by omega)
  · intro pos r hpos hdec
    obtain ⟨ov, p'⟩ := r
    rcases decodeFrom_ok_bounds _ T seq pos ov p' hdec with ⟨hch, -⟩ | ⟨h1, -⟩
    · exfalso
      cases es with
      | nil => simp at hEmpty
      | cons e es' =>
        have hkroot : kidsAt T ([] : List β) = true :=
          (insertAll_kids_iff hT).2
            (Or.inr ⟨e, by simp, by simp, fun hx => hne e (by simp) hx.symm⟩)
        unfold kidsAt at hkroot
        rw [findPath_nil] at hkroot
        simp [hch] at hkroot
    · exact h1

/-- Witness for C10 at a concrete input. -/
theorem claim_C10_witness :
    (decodeRun
        (TreeNode.mk none [(0, TreeNode.mk (some 1) []), (1, TreeNode.mk (some 2) [])]
          : TreeNode Nat Nat)
        [0, 1, 0]).isSome ∧
      ∀ (pos : Nat) (r : Option Nat × Nat), pos < ([0, 1, 0] : List Nat).length →
        treeDecode
            (TreeNode.mk none [(0, TreeNode.mk (some 1) []), (1, TreeNode.mk (some 2) [])]
              : TreeNode Nat Nat)
            [0, 1, 0] pos = .ok r → pos < r.2 :=
  claim_C10 [(1, [0]), (2, [1])]
    (TreeNode.mk none [(0, TreeNode.mk (some 1) []), (1, TreeNode.mk (some 2) [])])
    (by rfl) (by decide) [0, 1, 0]

/-- Rebuilding the code table from a tree built by successful insertions of a
prefix-free, key-unique table yields the same symbol lookups as the original
table. -/
theorem tableFromTree_lookup_eq [DecidableEq α] {es : List (α × List β)}
    {T : TreeNode β α}
    (hnd : (akeys es).Nodup)
    (hpf : es.Pairwise (fun a b => ¬a.2 <+: b.2 ∧ ¬b.2 <+: a.2))
    (hT : insertAll freshNode es = some T) :
    ∀ s : α, alookup s (tableFromTree T) = alookup s es := by
  have hk : KeysOk T := insertAll_keysOk hT keysOk_fresh
  have hsnd : (es.map Prod.snd).Nodup := pairwise_snd_nodup hpf
  have hmem1 : ∀ (x : α) (c : List β), (x, c) ∈ tableFromTree T → (x, c) ∈ es := by
    intro x c hm
    have hent := mem_fromList hm
    obtain ⟨q', hq, hv⟩ := (mem_entriesOf T hk [] c).1 hent
    rcases insertAll_valueAt_mem hT (show valueAt T c = some x by simpa [hq] using hv)
      with h1 | h1
    · simp at h1
    · exact h1
  intro s
  cases hes : alookup s es with
  | some c =>
    have hmes : (s, c) ∈ es := alookup_mem hes
    cases htb : alookup s (tableFromTree T) with
    | some c' =>
      have hmtb := alookup_mem htb
      have h2 : alookup s es = some c' := mem_alookup_of_nodup hnd (hmem1 s c' hmtb)
      rw [h2] at hes
      exact hes
    | none =>
      exfalso
      have hval : valueAt T c = some s := insertAll_valueAt_of_mem_nodup hsnd hT hmes
      have hent : (s, c) ∈ entriesOf T [] :=
        (mem_entriesOf T hk [] c).2 ⟨c, by simp, hval⟩
      have hkey : s ∈ akeys (tableFromTree T) := by
        rw [tableFromTree, mem_akeys_fromList]
        exact List.mem_map.2 ⟨(s, c), hent, rfl⟩
      rw [← alookup_isSome_iff_mem_akeys] at hkey
      rw [htb] at hkey
      simp at hkey
  | none =>
    cases htb : alookup s (tableFromTree T) with
    | some c' =>
      exfalso
      have hmtb := alookup_mem htb
      have hmes := hmem1 s c' hmtb
      have : s ∈ akeys es := List.mem_map.2 ⟨(s, c'), hmes, rfl⟩
      rw [← alookup_isSome_iff_mem_akeys] at this
      rw [hes] at this
      simp at this
    | none => rfl

/-- C6: building the decoding tree from a non-empty prefix-free code table
and then rebuilding the table from that tree yields the original table (as a
symbol-to-codeword mapping). -/
theorem claim_C6 [DecidableEq α] (es : List (α × List β))
    (hnd : (akeys es).Nodup)
    (hpf : es.Pairwise (fun a b => ¬a.2 <+: b.2 ∧ ¬b.2 <+: a.2))
    (hnonempty : es ≠ []) :
    ∃ T : TreeNode β α, treeFromTable es = some T ∧
      ∀ s : α, alookup s (tableFromTree T) = alookup s es := by
  obtain ⟨T, hT⟩ := insertAll_ok_of_pairwise hpf
  have hEmpty : es.isEmpty = false := by
    cases es with
    | nil => exact absurd rfl hnonempty
    | cons e es' => rfl
  exact ⟨T, by simp [treeFromTable, hEmpty, hT], tableFromTree_lookup_eq hnd hpf hT⟩

/-- Witness for C6 at a concrete prefix-free table. -/
theorem claim_C6_witness :
    ∃ T : TreeNode Nat Nat, treeFromTable [(1, [0]), (2, [1])] = some T ∧
      ∀ s : Nat, alookup s (tableFromTree T) = alookup s [(1, [0]), (2, [1])] :=
  claim_C6 [(1, [0]), (2, [1])] (by decide) (by decide) (by decide)

end TreeClaims

/-! ### Shannon-Fano-Elias lemmas and claim C5 -/

section SFELemmas

theorem floatToBinary_length (k : Nat) : ∀ v : ℚ, (floatToBinary v k).length = k := by
  induction k with
  | zero => intro v; rfl
  | succ n ih =>
    intro v
    by_cases h : 1 ≤ v * 2 <;> simp [floatToBinary, h, ih]

theorem sfeRows_fst (probs : List (Nat × ℚ)) :
    ∀ acc : ℚ, (sfeRows acc probs).map (fun r => r.1) = probs.map Prod.fst := by
  induction probs with
  | nil => intro acc; rfl
  | cons e rest ih =>
    intro acc
    obtain ⟨s, p⟩ := e
    simp [sfeRows, ih]

theorem sfeRows_mem :
    ∀ (probs : List (Nat × ℚ)), (akeys probs).Nodup →
      ∀ {x : Nat} {p : ℚ}, (x, p) ∈ probs → ∀ acc : ℚ,
        (x, p, acc + ((probs.takeWhile (fun e => decide (e.1 ≠ x))).map Prod.snd).sum)
          ∈ sfeRows acc probs := by
  intro probs
  induction probs with
  | nil => intro _ x p hmem; simp at hmem
  | cons e rest ih =>
    intro hnd x p hmem acc
    obtain ⟨s0, p0⟩ := e
    simp only [akeys, List.map_cons, List.nodup_cons] at hnd
    by_cases hs : s0 = x
    · subst hs
      have hp : p = p0 := by
        rcases List.mem_cons.1 hmem with h1 | h1
        · exact (Prod.mk.injEq .. ▸ h1).2
        · exact absurd (List.mem_map.2 ⟨(s0, p), h1, rfl⟩) hnd.1
      subst hp
      simp [sfeRows, List.takeWhile_cons]
    · have hmem' : (x, p) ∈ rest := by
        rcases List.mem_cons.1 hmem with h1 | h1
        · exact absurd (Prod.mk.injEq .. ▸ h1).1.symm hs
        · exact h1
      have := ih (by simpa [akeys] using hnd.2) hmem' (acc + p0)
      rw [sfeRows]
      rw [List.takeWhile_cons]
      simp only [hs, decide_not, ne_eq, decide_eq_true_eq, if_true,
        decide_eq_false_iff_not]
      refine List.mem_cons_of_mem _ ?_
      have harr : acc + p0 +
          ((rest.takeWhile (fun e => decide (e.1 ≠ x))).map Prod.snd).sum =
          acc + (p0 + ((rest.takeWhile (fun e => decide (e.1 ≠ x))).map Prod.snd).sum) := by
        ring
      rw [harr] at this
      simpa [hs] using this

/-- C5: for every valid ordered input distribution and every symbol `x` in
it, the Shannon-Fano-Elias code table assigns `x` the codeword obtained by
doubling out `F(x) + p(x)/2` — with `F(x)` the sum of the probabilities of
the symbols strictly before `x` in input order — to exactly
`ceil(-log2 p(x)) + 1 = ⌈log₂ p(x)⁻¹⌉ + 1` bits. -/
theorem claim_C5 (probs : List (Nat × ℚ)) (hnd : (akeys probs).Nodup)
    (hval : sfeValid probs) (x : Nat) (p : ℚ) (hmem : (x, p) ∈ probs) :
    ∃ c : List Bool,
      alookup x (sfeTable probs) = some c ∧
      c = floatToBinary
        (((probs.takeWhile (fun e => decide (e.1 ≠ x))).map Prod.snd).sum + p / 2)
        (Int.clog 2 p⁻¹ + 1).toNat ∧
      (c.length : ℤ) = Int.clog 2 p⁻¹ + 1 := by
  have hclog : Int.clog 2 p⁻¹ = ceilNegLog2 p := by
    rw [Int.clog_inv]
    rfl
  have hrow := sfeRows_mem probs hnd hmem 0
  rw [zero_add] at hrow
  set F := ((probs.takeWhile (fun e => decide (e.1 ≠ x))).map Prod.snd).sum with hF
  have hentry : (x, floatToBinary (F + p / 2) (ceilNegLog2 p + 1).toNat) ∈
      (sfeRows 0 probs).map
        (fun r => (r.1, floatToBinary (r.2.2 + r.2.1 / 2) (ceilNegLog2 r.2.1 + 1).toNat)) :=
    List.mem_map.2 ⟨(x, p, F), hrow, rfl⟩
  have hkeys : akeys ((sfeRows 0 probs).map
      (fun r => (r.1, floatToBinary (r.2.2 + r.2.1 / 2) (ceilNegLog2 r.2.1 + 1).toNat))) =
      akeys probs := by
    rw [akeys, List.map_map]
    rw [show (Prod.fst ∘ fun r : Nat × ℚ × ℚ =>
      (r.1, floatToBinary (r.2.2 + r.2.1 / 2) (ceilNegLog2 r.2.1 + 1).toNat)) =
      (fun r : Nat × ℚ × ℚ => r.1) from rfl]
    rw [sfeRows_fst]
    rfl
  have htab : sfeTable probs = (sfeRows 0 probs).map
      (fun r => (r.1, floatToBinary (r.2.2 + r.2.1 / 2) (ceilNegLog2 r.2.1 + 1).toNat)) := by
    rw [sfeTable]
    exact fromList_eq_self (by rw [hkeys]; exact hnd)
  have hlook : alookup x (sfeTable probs) =
      some (floatToBinary (F + p / 2) (ceilNegLog2 p + 1).toNat) := by
    rw [htab]
    exact mem_alookup_of_nodup (by rw [hkeys]; exact hnd) hentry
  have hp : 0 < p := hval.1 (x, p) hmem
  have hple : p < 2 := by
    obtain ⟨l1, l2, hsplit⟩ := List.append_of_mem hmem
    have h1 : 0 ≤ (l1.map Prod.snd).sum := by
      refine List.sum_nonneg ?_
      intro y hy
      obtain ⟨e, he, rfl⟩ := List.mem_map.1 hy
      exact le_of_lt (hval.1 e (by rw [hsplit]; exact List.mem_append_left _ he))
    have h2 : 0 ≤ (l2.map Prod.snd).sum := by
      refine List.sum_nonneg ?_
      intro y hy
      obtain ⟨e, he, rfl⟩ := List.mem_map.1 hy
      refine le_of_lt (hval.1 e ?_)
      rw [hsplit]
      exact List.mem_append_right _ (List.mem_cons_of_mem _ he)
    have htot : (probs.map Prod.snd).sum = (l1.map Prod.snd).sum + p + (l2.map Prod.snd).sum := by
      rw [hsplit]
      simp [List.sum_append]
      ring
    have hub := (abs_le.1 hval.2).2
    rw [htot] at hub
    linarith
  have hlog : Int.log 2 p ≤ 0 := by
    by_contra hpos
    push_neg at hpos
    have h1 : (1 : ℤ) ≤ Int.log 2 p := hpos
    have h2 : ((2 : ℕ) : ℚ) ^ (1 : ℤ) ≤ p :=
      (Int.zpow_le_iff_le_log (by norm_num) hp).2 h1
    norm_num at h2
    linarith
  have hLpos : (0 : ℤ) ≤ ceilNegLog2 p + 1 := by
    rw [ceilNegLog2]
    omega
  refine ⟨floatToBinary (F + p / 2) (ceilNegLog2 p + 1).toNat, hlook, ?_, ?_⟩
  · rw [hclog]
  · rw [floatToBinary_length, hclog]
    exact Int.toNat_of_nonneg hLpos

/-- Witness for C5 on the distribution `{1 ↦ 1/2, 2 ↦ 1/2}` at symbol `1`. -/
theorem claim_C5_witness :
    ∃ c : List Bool,
      alookup 1 (sfeTable [(1, 1 / 2), (2, 1 / 2)]) = some c ∧
      c = floatToBinary
        ((([(1, (1 : ℚ) / 2), (2, 1 / 2)].takeWhile
            (fun e => decide (e.1 ≠ 1))).map Prod.snd).sum + (1 / 2) / 2)
        (Int.clog 2 ((1 : ℚ) / 2)⁻¹ + 1).toNat ∧
      (c.length : ℤ) = Int.clog 2 ((1 : ℚ) / 2)⁻¹ + 1 :=
  claim_C5 [(1, 1 / 2), (2, 1 / 2)] (by decide)
    ⟨by
      intro e he
      simp at he
      rcases he with rfl | rfl <;> norm_num, by norm_num⟩
    1 (1 / 2) (List.mem_cons_self _ _)

end SFELemmas

/-! ### Huffman heap lemmas -/

section HuffHeap

theorem heapLt_asymm {x y : HuffItem} (h : heapLt x y) : ¬ heapLt y x := by
  unfold heapLt at *
  rcases h with h | ⟨he, hc⟩
  · rintro (h' | ⟨he', -⟩)
    · exact absurd (lt_trans h h') (lt_irrefl _)
    · rw [he'] at h
      exact lt_irrefl _ h
  · rintro (h' | ⟨-, hc'⟩)
    · rw [he] at h'
      exact lt_irrefl _ h'
    · omega

theorem not_heapLt_trans {x y z : HuffItem} (h1 : ¬ heapLt x y) (h2 : ¬ heapLt y z) :
    ¬ heapLt x z := by
  unfold heapLt at *
  push_neg at h1 h2 ⊢
  obtain ⟨h1a, h1b⟩ := h1
  obtain ⟨h2a, h2b⟩ := h2
  constructor
  · exact le_trans h2a h1a
  · intro he
    have hyx : y.1 = x.1 := le_antisymm h1a (he ▸ h2a)
    have hzy : z.1 = y.1 := by rw [hyx, he]
    exact le_trans (h2b hzy.symm) (h1b hyx.symm)

theorem popMin_none_iff {l : List HuffItem} : popMin l = none ↔ l = [] := by
  cases l with
  | nil => simp [popMin]
  | cons a rest =>
    simp only [popMin]
    cases h : popMin rest with
    | none => simp
    | some p =>
      obtain ⟨m, rest'⟩ := p
      by_cases hlt : heapLt m a <;> simp [hlt]

theorem popMin_perm :
    ∀ {l : List HuffItem} {m : HuffItem} {l' : List HuffItem},
      popMin l = some (m, l') → l.Perm (m :: l') := by
  intro l
  induction l with
  | nil => intro m l' h; simp [popMin] at h
  | cons a rest ih =>
    intro m l' h
    simp only [popMin] at h
    cases hrest : popMin rest with
    | none =>
      simp only [hrest] at h
      simp at h
      obtain ⟨rfl, rfl⟩ := h
      rw [popMin_none_iff.1 hrest]
    | some p =>
      obtain ⟨m0, rest'⟩ := p
      simp only [hrest] at h
      by_cases hlt : heapLt m0 a
      · rw [if_pos hlt] at h
        simp at h
        obtain ⟨rfl, rfl⟩ := h
        exact (List.Perm.cons a (ih hrest)).trans (List.Perm.swap _ _ _)
      · rw [if_neg hlt] at h
        simp at h
        obtain ⟨rfl, rfl⟩ := h
        exact List.Perm.refl _

theorem popMin_min :
    ∀ {l : List HuffItem} {m : HuffItem} {l' : List HuffItem},
      popMin l = some (m, l') → ∀ x ∈ l', ¬ heapLt x m := by
  intro l
  induction l with
  | nil => intro m l' h; simp [popMin] at h
  | cons a rest ih =>
    intro m l' h x hx
    simp only [popMin] at h
    cases hrest : popMin rest with
    | none =>
      simp only [hrest] at h
      simp at h
      obtain ⟨rfl, rfl⟩ := h
      simp at hx
    | some p =>
      obtain ⟨m0, rest'⟩ := p
      simp only [hrest] at h
      by_cases hlt : heapLt m0 a
      · rw [if_pos hlt] at h
        simp at h
        obtain ⟨rfl, rfl⟩ := h
        rcases List.mem_cons.1 hx with rfl | hx'
        · exact heapLt_asymm hlt
        · exact ih hrest x hx'
      · rw [if_neg hlt] at h
        simp at h
        obtain ⟨rfl, rfl⟩ := h
        have hperm := popMin_perm hrest
        have hx2 : x ∈ m0 :: rest' := hperm.mem_iff.1 hx
        rcases List.mem_cons.1 hx2 with heq | hx'
        · rw [heq]
          exact hlt
        · exact not_heapLt_trans (ih hrest x hx') hlt

theorem akeys_map_code {κ ν ν' : Type} (f : κ × ν → ν') (l : List (κ × ν)) :
    akeys (l.map (fun e => (e.1, f e))) = akeys l := by
  induction l with
  | nil => rfl
  | cons e rest ih => simp [akeys]

theorem mergedTable_mem_ne_nil {t0 t1 : List (List Nat × List Bool)} :
    ∀ e ∈ mergedTable t0 t1, e.2 ≠ ([] : List Bool) := by
  intro e he
  have := mem_fromList he
  rcases List.mem_append.1 this with h | h
  · obtain ⟨e0, -, rfl⟩ := List.mem_map.1 h
    simp
  · obtain ⟨e1, -, rfl⟩ := List.mem_map.1 h
    simp

theorem mergedTable_eq {t0 t1 : List (List Nat × List Bool)}
    (hnd : (akeys t0 ++ akeys t1).Nodup) :
    mergedTable t0 t1 =
      t0.map (fun e => (e.1, false :: e.2)) ++ t1.map (fun e => (e.1, true :: e.2)) := by
  unfold mergedTable
  refine fromList_eq_self ?_
  rw [akeys, List.map_append]
  rw [show List.map Prod.fst (t0.map (fun e => (e.1, false :: e.2))) = akeys t0 from
    akeys_map_code _ t0]
  rw [show List.map Prod.fst (t1.map (fun e => (e.1, true :: e.2))) = akeys t1 from
    akeys_map_code _ t1]
  exact hnd

theorem mergedTable_akeys {t0 t1 : List (List Nat × List Bool)}
    (hnd : (akeys t0 ++ akeys t1).Nodup) :
    akeys (mergedTable t0 t1) = akeys t0 ++ akeys t1 := by
  rw [mergedTable_eq hnd, akeys, List.map_append]
  rw [show List.map Prod.fst (t0.map (fun e => (e.1, false :: e.2))) = akeys t0 from
    akeys_map_code _ t0]
  rw [show List.map Prod.fst (t1.map (fun e => (e.1, true :: e.2))) = akeys t1 from
    akeys_map_code _ t1]

theorem tableOk_merged {t0 t1 : List (List Nat × List Bool)}
    (h0 : TableOk t0) (h1 : TableOk t1) (hnd : (akeys t0 ++ akeys t1).Nodup) :
    TableOk (mergedTable t0 t1) := by
  constructor
  · rw [mergedTable_akeys hnd]
    exact hnd
  · rw [mergedTable_eq hnd]
    rw [List.pairwise_append]
    refine ⟨?_, ?_, ?_⟩
    · rw [List.pairwise_map]
      refine h0.2.imp ?_
      intro a b hab
      simpa [List.cons_prefix_cons] using hab
    · rw [List.pairwise_map]
      refine h1.2.imp ?_
      intro a b hab
      simpa [List.cons_prefix_cons] using hab
    · intro a ha b hb
      obtain ⟨a0, -, rfl⟩ := List.mem_map.1 ha
      obtain ⟨b1, -, rfl⟩ := List.mem_map.1 hb
      simp [List.cons_prefix_cons]

/-- One merge step, destructured: the two popped entries are minimal, the
new heap is the remainder plus the merged entry. -/
theorem huffStep_destruct {st : List HuffItem × Nat} (hlen : 2 ≤ st.1.length) :
    ∃ (i0 i1 : HuffItem) (h2 : List HuffItem),
      (huffStep st).1 = h2 ++ [(i0.1 + i1.1, st.2, mergedTable i0.2.2 i1.2.2)] ∧
      st.1.Perm (i0 :: i1 :: h2) ∧
      (∀ x ∈ i1 :: h2, ¬ heapLt x i0) ∧ (∀ x ∈ h2, ¬ heapLt x i1) := by
  cases hp0 : popMin st.1 with
  | none =>
    rw [popMin_none_iff.1 hp0] at hlen
    simp at hlen
  | some p0 =>
    obtain ⟨i0, h1⟩ := p0
    have hperm0 := popMin_perm hp0
    have hlen1 : 1 ≤ h1.length := by
      have := hperm0.length_eq
      simp at this
      omega
    cases hp1 : popMin h1 with
    | none =>
      rw [popMin_none_iff.1 hp1] at hlen1
      simp at hlen1
    | some p1 =>
      obtain ⟨i1, h2⟩ := p1
      have hperm1 := popMin_perm hp1
      refine ⟨i0, i1, h2, ?_, ?_, ?_, ?_⟩
      · simp [huffStep, hp0, hp1]
      · exact hperm0.trans (hperm1.cons i0)
      · intro x hx
        exact popMin_min hp0 x (hperm1.symm.mem_iff.1 hx)
      · exact popMin_min hp1

/-- One merge step preserves the heap invariant and shrinks the heap by
one entry. -/
theorem huffStep_heapOk {dom : List (List Nat)} (hdnd : dom.Nodup)
    {st : List HuffItem × Nat} (hok : HeapOk dom st.1) (hlen : 2 ≤ st.1.length) :
    HeapOk dom (huffStep st).1 ∧ (huffStep st).1.length + 1 = st.1.length := by
  obtain ⟨i0, i1, h2, heq, hperm, -, -⟩ := huffStep_destruct hlen
  obtain ⟨hitems, hjoin⟩ := hok
  have hjoin2 : ((st.1.map (fun i => akeys i.2.2)).flatten).Perm
      (akeys i0.2.2 ++ (akeys i1.2.2 ++ (h2.map (fun i => akeys i.2.2)).flatten)) := by
    have := (hperm.map (fun i => akeys i.2.2)).flatten
    simpa using this
  have hjoinnd : (akeys i0.2.2 ++ (akeys i1.2.2 ++
      (h2.map (fun i => akeys i.2.2)).flatten)).Nodup :=
    (hjoin2.symm.trans hjoin).nodup_iff.2 hdnd
  have hnd01 : (akeys i0.2.2 ++ akeys i1.2.2).Nodup := by
    have := hjoinnd
    rw [← List.append_assoc] at this
    exact this.of_append_left
  constructor
  · constructor
    · intro i hi
      rw [heq] at hi
      rcases List.mem_append.1 hi with h | h
      · exact hitems i (hperm.symm.mem_iff.1 (by simp [h]))
      · simp at h
        subst h
        exact tableOk_merged
          (hitems i0 (hperm.symm.mem_iff.1 (by simp)))
          (hitems i1 (hperm.symm.mem_iff.1 (by simp)))
          hnd01
    · rw [heq]
      have h1 : ((h2 ++ [(i0.1 + i1.1, st.2, mergedTable i0.2.2 i1.2.2)]).map
            (fun i => akeys i.2.2)).flatten =
          (h2.map (fun i => akeys i.2.2)).flatten ++ (akeys i0.2.2 ++ akeys i1.2.2) := by
        rw [List.map_append, List.flatten_append]
        simp [mergedTable_akeys hnd01]
      rw [h1]
      refine List.Perm.trans ?_ hjoin
      refine List.Perm.trans List.perm_append_comm ?_
      rw [List.append_assoc]
      exact hjoin2.symm
  · rw [heq]
    have := hperm.length_eq
    simp at this ⊢
    omega

theorem huffLoop_of_short {st : List HuffItem × Nat} (h : st.1.length ≤ 1) :
    ∀ fuel, huffLoop fuel st = st := by
  intro fuel
  cases fuel with
  | zero => rfl
  | succ f => simp [huffLoop, h]

/-- The merge loop ends with a single heap entry and preserves the heap
invariant. -/
theorem huffLoop_spec {dom : List (List Nat)} (hdnd : dom.Nodup) :
    ∀ (fuel : Nat) (st : List HuffItem × Nat), HeapOk dom st.1 →
      1 ≤ st.1.length → st.1.length ≤ fuel →
      HeapOk dom (huffLoop fuel st).1 ∧ (huffLoop fuel st).1.length = 1 := by
  intro fuel
  induction fuel with
  | zero =>
    intro st _ h1 h2
    omega
  | succ f ih =>
    intro st hok h1 h2
    by_cases hle : st.1.length ≤ 1
    · rw [huffLoop, if_pos hle]
      exact ⟨hok, by omega⟩
    · rw [huffLoop, if_neg hle]
      push_neg at hle
      obtain ⟨hok', hlen'⟩ := huffStep_heapOk hdnd hok (by omega)
      exact ih (huffStep st) hok' (by omega) (by omega)

/-- When the loop starts with at least two entries, every codeword of the
final table is non-empty (they all pass through the last merge). -/
theorem huffLoop_codes_ne_nil :
    ∀ (fuel : Nat) (st : List HuffItem × Nat), 2 ≤ st.1.length → st.1.length ≤ fuel →
      ∀ i ∈ (huffLoop fuel st).1, ∀ e ∈ i.2.2, e.2 ≠ ([] : List Bool) := by
  intro fuel
  induction fuel with
  | zero =>
    intro st h1 h2
    omega
  | succ f ih =>
    intro st h1 h2 i hi e he
    rw [huffLoop, if_neg (by omega)] at hi
    obtain ⟨i0, i1, h2', heq, hperm, -, -⟩ := huffStep_destruct h1
    have hlen' : (huffStep st).1.length + 1 = st.1.length := by
      rw [heq]
      have := hperm.length_eq
      simp at this ⊢
      omega
    by_cases hge : 2 ≤ (huffStep st).1.length
    · exact ih (huffStep st) hge (by omega) i hi e he
    · rw [huffLoop_of_short (by omega)] at hi
      rw [heq] at hi
      have hlh : (huffStep st).1.length = h2'.length + 1 := by
        rw [heq]
        simp
      have hh2 : h2' = [] := List.length_eq_zero.1 (by omega)
      subst hh2
      simp at hi
      subst hi
      exact mergedTable_mem_ne_nil e he

theorem flatten_singletons {γ δ : Type} (f : γ → δ) (l : List γ) :
    (l.map (fun x => [f x])).flatten = l.map f := by
  induction l with
  | nil => rfl
  | cons x rest ih => simp [ih]

theorem huffHeap0_domains (ngp : List (List Nat × ℚ)) :
    (huffHeap0 ngp).map (fun i => akeys i.2.2) = ngp.map (fun e => [e.1]) := by
  unfold huffHeap0
  rw [List.map_map]
  have h1 : ((fun i : HuffItem => akeys i.2.2) ∘
      (fun e : Nat × (List Nat × ℚ) => ((e.2.2 : ℚ), e.1, [(e.2.1, ([] : List Bool))]))) =
      fun e : Nat × (List Nat × ℚ) => [e.2.1] := rfl
  rw [h1]
  have h2 : ngp.enum.map (fun e => [e.2.1]) =
      (ngp.enum.map Prod.snd).map (fun p => [p.1]) := by
    rw [List.map_map]
    rfl
  rw [h2, List.enum_map_snd]

/-- The final Huffman table: well-formed, with exactly the n-gram domain,
and (when there were at least two n-grams) only non-empty codewords. -/
theorem huffTable_spec (n : Nat) (probs : List (Nat × ℚ))
    (hne : huffNgramP n probs ≠ []) :
    TableOk (huffTable n probs) ∧
      (akeys (huffTable n probs)).Perm (akeys (huffNgramP n probs)) ∧
      (2 ≤ (huffNgramP n probs).length →
        ∀ e ∈ huffTable n probs, e.2 ≠ ([] : List Bool)) := by
  have hdnd : (akeys (huffNgramP n probs)).Nodup := by
    unfold huffNgramP
    exact akeys_fromList_nodup _
  have hlen0 : (huffHeap0 (huffNgramP n probs)).length = (huffNgramP n probs).length := by
    unfold huffHeap0
    simp
  have hok0 : HeapOk (akeys (huffNgramP n probs)) (huffHeap0 (huffNgramP n probs)) := by
    constructor
    · intro i hi
      unfold huffHeap0 at hi
      obtain ⟨e, -, rfl⟩ := List.mem_map.1 hi
      exact ⟨by simp [akeys], by simp⟩
    · rw [huffHeap0_domains, flatten_singletons Prod.fst]
      exact List.Perm.refl _
  have h1 : 1 ≤ (huffNgramP n probs).length := by
    cases hmm : huffNgramP n probs with
    | nil => exact absurd hmm hne
    | cons a rest => simp [hmm]
  obtain ⟨hokF, hlenF⟩ := huffLoop_spec hdnd (huffHeap0 (huffNgramP n probs)).length
    (huffHeap0 (huffNgramP n probs), (huffHeap0 (huffNgramP n probs)).length) hok0
    (by simp only []; omega) (by simp only [hlen0]; omega)
  cases hF : (huffLoop (huffHeap0 (huffNgramP n probs)).length
      (huffHeap0 (huffNgramP n probs), (huffHeap0 (huffNgramP n probs)).length)).1 with
  | nil =>
    rw [hF] at hlenF
    simp at hlenF
  | cons i rest =>
    have hrest : rest = [] := by
      rw [hF] at hlenF
      simpa using hlenF
    subst hrest
    have htbl : huffTable n probs = i.2.2 := by
      unfold huffTable
      rw [hF]
    rw [hF] at hokF
    refine ⟨htbl ▸ hokF.1 i (by simp), ?_, ?_⟩
    · rw [htbl]
      have := hokF.2
      simpa using this
    · intro h2 e he
      refine huffLoop_codes_ne_nil (huffHeap0 (huffNgramP n probs)).length
        (huffHeap0 (huffNgramP n probs), (huffHeap0 (huffNgramP n probs)).length)
        (by simp only [hlen0]; omega) (by simp only [hlen0]; omega) i ?_ e (htbl ▸ he)
      rw [hF]
      simp

theorem mem_prodLists {γ : Type} :
    ∀ (n : Nat) (l : List γ) (g : List γ),
      g ∈ prodLists n l ↔ g.length = n ∧ ∀ x ∈ g, x ∈ l := by
  intro n
  induction n with
  | zero =>
    intro l g
    simp [prodLists, List.length_eq_zero]
    intro h
    subst h
    simp
  | succ k ih =>
    intro l g
    simp only [prodLists, List.mem_flatMap, List.mem_map]
    constructor
    · rintro ⟨a, ha, g', hg', rfl⟩
      obtain ⟨hlen, hmem⟩ := (ih l g').1 hg'
      refine ⟨by simp [hlen], ?_⟩
      intro x hx
      rcases List.mem_cons.1 hx with rfl | hx'
      · exact ha
      · exact hmem x hx'
    · rintro ⟨hlen, hmem⟩
      cases g with
      | nil => simp at hlen
      | cons a g' =>
        refine ⟨a, hmem a (by simp), g', ?_, rfl⟩
        refine (ih l g').2 ⟨by simpa using hlen, ?_⟩
        intro x hx
        exact hmem x (List.mem_cons_of_mem _ hx)

theorem akeys_map_self {γ δ : Type} (f : γ → δ) (l : List γ) :
    akeys (l.map (fun x => (x, f x))) = l := by
  induction l with
  | nil => rfl
  | cons x rest ih => simp [akeys] at ih ⊢; exact ih

theorem mem_akeys_huffPExt {probs : List (Nat × ℚ)} {x : Nat} :
    x ∈ akeys (huffPExt probs) ↔ x ∈ akeys probs ∨ x = PAD := by
  unfold huffPExt
  rw [mem_akeys_aupd, mem_akeys_fromList, akeys_map_code]

theorem mem_akeys_huffNgramP {n : Nat} {probs : List (Nat × ℚ)} {g : List Nat} :
    g ∈ akeys (huffNgramP n probs) ↔ g ∈ prodLists n (akeys (huffPExt probs)) := by
  unfold huffNgramP
  rw [mem_akeys_fromList, akeys_map_self]

theorem two_le_length_of_two_mem {γ : Type} {a b : γ} {l : List γ} (hab : a ≠ b)
    (ha : a ∈ l) (hb : b ∈ l) : 2 ≤ l.length := by
  cases l with
  | nil => simp at ha
  | cons x rest =>
    cases rest with
    | nil =>
      simp at ha hb
      exact absurd (ha.trans hb.symm) hab
    | cons y rest2 =>
      simp [Nat.succ_le_succ, Nat.le_add_left]

theorem treeFromTable_some {β α : Type} [DecidableEq β]
    {tbl : List (α × List β)} {T : TreeNode β α} (h : treeFromTable tbl = some T) :
    tbl.isEmpty = false ∧ insertAll freshNode tbl = some T := by
  unfold treeFromTable at h
  by_cases he : tbl.isEmpty
  · rw [if_pos he] at h
    simp at h
  · rw [if_neg he] at h
    exact ⟨by simpa using he, h⟩

theorem huffmanInit_some {n : Nat} {probs : List (Nat × ℚ)} {st : HuffState}
    (h : huffmanInit n probs = some st) :
    huffValid n probs ∧ st.n = n ∧ st.ngramP = huffNgramP n probs ∧
      treeFromTable (huffTable n probs) = some st.tree ∧
      st.table = tableFromTree st.tree := by
  unfold huffmanInit at h
  by_cases hv : huffValid n probs
  · rw [if_pos hv] at h
    cases htf : treeFromTable (huffTable n probs) with
    | none =>
      simp only [htf] at h
      exact absurd h (by simp)
    | some T =>
      simp only [htf] at h
      simp only [Option.some.injEq] at h
      subst h
      exact ⟨hv, rfl, rfl, rfl, rfl⟩
  · rw [if_neg hv] at h
    simp at h

end HuffHeap

/-! ### Text pipeline lemmas: chunking, padding, per-block encoding -/

section TextLemmas

/-- Splitting into blocks and flattening recovers the original list. -/
theorem chunksText_flatten (n : Nat) :
    ∀ (k : Nat) (l : List Nat), l.length ≤ k → (chunksText n l).flatten = l := by
  intro k
  induction k with
  | zero =>
    intro l hl
    have : l = [] := List.length_eq_zero.1 (by omega)
    subst this
    simp [chunksText]
  | succ j ih =>
    intro l hl
    cases l with
    | nil => simp [chunksText]
    | cons x xs =>
      simp only [chunksText, List.flatten_cons]
      rw [ih (xs.drop (n - 1)) (by simp at hl ⊢; omega)]
      simp [List.take_append_drop]

/-- When the length is an exact multiple of `n ≥ 1`, every block produced by
the slicing loop has exactly `n` symbols. -/
theorem chunksText_length {n : Nat} (hn : 1 ≤ n) :
    ∀ (k : Nat) (l : List Nat), l.length = k * n → ∀ b ∈ chunksText n l, b.length = n := by
  intro k
  induction k with
  | zero =>
    intro l hl b hb
    have : l = [] := List.length_eq_zero.1 (by simpa using hl)
    subst this
    simp [chunksText] at hb
  | succ j ih =>
    intro l hl b hb
    cases l with
    | nil => simp [chunksText] at hb
    | cons x xs =>
      simp only [chunksText] at hb
      rw [Nat.succ_mul] at hl
      simp only [List.length_cons] at hl
      rcases List.mem_cons.1 hb with rfl | hb'
      · simp only [List.length_cons, List.length_take]
        generalize j * n = Q at hl
        omega
      · refine ih (xs.drop (n - 1)) ?_ b hb'
        rw [List.length_drop]
        generalize j * n = Q at hl ⊢
        omega

/-- Stripping trailing padding undoes right-padding, provided the text itself
contains no padding symbol. -/
theorem stripPad_append_pad {text : List Nat} (hP : PAD ∉ text) (p : Nat) :
    stripPad (text ++ List.replicate p PAD) = text := by
  unfold stripPad
  rw [List.reverse_append, List.reverse_replicate]
  have h1 : (List.replicate p PAD ++ text.reverse).dropWhile (fun s => decide (s = PAD))
      = text.reverse.dropWhile (fun s => decide (s = PAD)) := by
    induction p with
    | zero => simp
    | succ q ihq => simp [List.replicate_succ, List.dropWhile_cons, ihq]
  rw [h1]
  have h2 : text.reverse.dropWhile (fun s => decide (s = PAD)) = text.reverse := by
    cases htr : text.reverse with
    | nil => simp
    | cons hd tl =>
      have hmem : hd ∈ text := by
        have : hd ∈ text.reverse := by rw [htr]; simp
        simpa using this
      have hne : ¬ (hd = PAD) := fun he => hP (he ▸ hmem)
      simp [List.dropWhile_cons, hne]
  rw [h2, List.reverse_reverse]

/-- Every rebuilt table entry comes from the original table that built the
tree. -/
theorem mem_tableFromTree_sub {β α : Type} [DecidableEq β] [DecidableEq α]
    {es : List (α × List β)} {T : TreeNode β α}
    (hT : insertAll freshNode es = some T) :
    ∀ x c, (x, c) ∈ tableFromTree T → (x, c) ∈ es := by
  intro x c hm
  have hk : KeysOk T := insertAll_keysOk hT keysOk_fresh
  have hent := mem_fromList hm
  obtain ⟨q', hq, hv⟩ := (mem_entriesOf T hk [] c).1 hent
  rcases insertAll_valueAt_mem hT
      (show valueAt T c = some x by simpa [hq] using hv) with h1 | h1
  · rw [valueAt_fresh] at h1
    exact absurd h1 (by simp)
  · exact h1

/-- The encoding loop succeeds whenever every message symbol has a table
entry. -/
theorem encodeGo_ok_of_isSome {α β : Type} [DecidableEq α] {tb : List (α × List β)} :
    ∀ (m : List α), (∀ x ∈ m, (alookup x tb).isSome) →
      ∃ enc, encodeGo tb m = .ok enc := by
  intro m
  induction m with
  | nil => intro h; exact ⟨[], rfl⟩
  | cons x m' ih =>
    intro h
    obtain ⟨c, hc⟩ := Option.isSome_iff_exists.1 (h x (by simp))
    obtain ⟨enc', henc'⟩ := ih (fun y hy => h y (List.mem_cons_of_mem _ hy))
    refine ⟨c ++ enc', ?_⟩
    simp only [encodeGo, hc, henc']

/-- The per-block loop of `encode_text` agrees with encoding the block list
as one message over the n-gram alphabet. -/
theorem encodeBlocks_eq {tbl : List (List Nat × List Bool)} (htne : tbl.isEmpty = false) :
    ∀ blocks, encodeBlocks tbl blocks = pedEncode tbl blocks := by
  intro blocks
  rw [pedEncode, htne]
  simp only [Bool.false_eq_true, if_false]
  induction blocks with
  | nil => rfl
  | cons blk rest ih =>
    cases hck : alookup blk tbl with
    | none =>
      have h1 : pedEncode tbl [blk] = .error () := by
        rw [pedEncode, htne]
        simp only [Bool.false_eq_true, if_false, encodeGo, hck]
      simp only [encodeBlocks, h1, encodeGo, hck]
    | some c =>
      have h1 : pedEncode tbl [blk] = .ok (c ++ []) := by
        rw [pedEncode, htne]
        simp only [Bool.false_eq_true, if_false, encodeGo, hck]
      simp only [encodeBlocks, h1, encodeGo, hck, ih]
      cases encodeGo tbl rest <;> simp

/-- Master specification of a successfully constructed Huffman coder, given
one alphabet symbol `x` distinct from the padding symbol: block length,
tree/table provenance, table lookups, non-empty codewords, and totality of
lookups on n-grams over the padded alphabet. -/
theorem huffState_spec {n : Nat} {probs : List (Nat × ℚ)} {st : HuffState}
    (hinit : huffmanInit n probs = some st) {x : Nat} (hx : x ∈ akeys probs)
    (hxP : x ≠ PAD) :
    1 ≤ n ∧ st.n = n ∧
      insertAll freshNode (huffTable n probs) = some st.tree ∧
      st.table = tableFromTree st.tree ∧
      (∀ s, alookup s st.table = alookup s (huffTable n probs)) ∧
      (∀ p ∈ huffTable n probs, p.2 ≠ ([] : List Bool)) ∧
      (∀ g : List Nat, g.length = n → (∀ y ∈ g, y ∈ akeys probs ∨ y = PAD) →
        (alookup g (huffTable n probs)).isSome) := by
  obtain ⟨hv, hn, hngp, htree, htbl⟩ := huffmanInit_some hinit
  have hn1 : 1 ≤ n := hv.1
  have hxp : x ∈ akeys (huffPExt probs) := mem_akeys_huffPExt.2 (Or.inl hx)
  have hPp : PAD ∈ akeys (huffPExt probs) := mem_akeys_huffPExt.2 (Or.inr rfl)
  have hg1 : List.replicate n x ∈ akeys (huffNgramP n probs) := by
    rw [mem_akeys_huffNgramP, mem_prodLists]
    exact ⟨by simp, fun y hy => (List.eq_of_mem_replicate hy) ▸ hxp⟩
  have hg2 : List.replicate n PAD ∈ akeys (huffNgramP n probs) := by
    rw [mem_akeys_huffNgramP, mem_prodLists]
    exact ⟨by simp, fun y hy => (List.eq_of_mem_replicate hy) ▸ hPp⟩
  have hgne : List.replicate n x ≠ List.replicate n PAD := by
    intro he
    cases n with
    | zero => omega
    | succ m =>
      rw [List.replicate_succ, List.replicate_succ, List.cons.injEq] at he
      exact hxP he.1
  have h2 : 2 ≤ (huffNgramP n probs).length := by
    have := two_le_length_of_two_mem hgne hg1 hg2
    simpa [akeys] using this
  have hne : huffNgramP n probs ≠ [] := by
    intro he
    rw [he] at h2
    simp at h2
  obtain ⟨hTok, hTperm, hTcodes⟩ := huffTable_spec n probs hne
  obtain ⟨-, hIA⟩ := treeFromTable_some htree
  have hlook : ∀ s, alookup s st.table = alookup s (huffTable n probs) := by
    intro s
    rw [htbl]
    exact tableFromTree_lookup_eq hTok.1 hTok.2 hIA s
  refine ⟨hn1, hn, hIA, htbl, hlook, hTcodes h2, ?_⟩
  intro g hglen hgmem
  rw [alookup_isSome_iff_mem_akeys, hTperm.mem_iff, mem_akeys_huffNgramP, mem_prodLists]
  refine ⟨hglen, ?_⟩
  intro y hy
  rcases hgmem y hy with h | h
  · exact mem_akeys_huffPExt.2 (Or.inl h)
  · exact mem_akeys_huffPExt.2 (Or.inr h)

theorem huffValid_example : huffValid 1 [(1, 1)] := by
  refine ⟨le_refl 1, ?_, by norm_num⟩
  intro e he
  simp at he
  rw [he]
  norm_num

theorem huffPExt_example :
    huffPExt [(1, 1)] = [(1, 9999999999 / 10000000000), (0, 1 / 10000000000)] := by
  unfold huffPExt PAD
  norm_num [fromList, aupd]

theorem huffNgramP_example : huffNgramP 1 [(1, 1)] = exNgp := by
  unfold huffNgramP
  rw [huffPExt_example]
  norm_num [prodLists, akeys, fromList, aupd, alookup, exNgp]

theorem huffHeap0_example : huffHeap0 exNgp = [exA, exB] := rfl

theorem huffStep_example : huffStep ([exA, exB], 2) = ([(1, 2, exTable)], 3) := by
  have hBA : heapLt exB exA := Or.inl (by norm_num [exA, exB])
  have hpop : popMin [exA, exB] = some (exB, [exA]) := by
    simp only [popMin]
    rw [if_pos hBA]
  have hpop2 : popMin [exA] = some (exA, []) := by
    simp only [popMin]
  simp only [huffStep, hpop, hpop2]
  norm_num [exA, exB, mergedTable, fromList, aupd, exTable]

theorem huffLoop_example : huffLoop 2 ([exA, exB], 2) = ([(1, 2, exTable)], 3) := by
  show huffLoop (1 + 1) ([exA, exB], 2) = ([(1, 2, exTable)], 3)
  rw [huffLoop]
  have hc : ¬ (([exA, exB], 2).1.length ≤ 1) := by simp
  rw [if_neg hc, huffStep_example]
  show huffLoop (0 + 1) ([(1, 2, exTable)], 3) = ([(1, 2, exTable)], 3)
  rw [huffLoop]
  have hc2 : (([((1 : ℚ), 2, exTable)], 3).1.length ≤ 1) := by simp
  rw [if_pos hc2]

theorem huffTable_example : huffTable 1 [(1, 1)] = exTable := by
  unfold huffTable
  rw [huffNgramP_example, huffHeap0_example]
  rw [show ([exA, exB] : List HuffItem).length = 2 from rfl]
  rw [huffLoop_example]

theorem treeFromTable_example : treeFromTable exTable = some exTree := rfl

theorem tableFromTree_example : tableFromTree exTree = exTable := rfl

/-- `HuffmanNgramCoder(1, {1: 1.0})` constructs successfully and evaluates to
the example state. -/
theorem huffmanInit_example : huffmanInit 1 [(1, 1)] = some exState := by
  unfold huffmanInit
  rw [if_pos huffValid_example, huffTable_example, treeFromTable_example]
  show some (⟨1, huffNgramP 1 [(1, 1)], exTree, tableFromTree exTree⟩ : HuffState)
      = some exState
  rw [huffNgramP_example, tableFromTree_example]
  rfl

end TextLemmas

/-! ### Huffman claims C7 and C8 -/

section HuffClaims

/-- C8 counterexample: the coder built from the one-symbol distribution
`{1: 1.0}` with block length 1 maps its single original 1-gram `[1]` to the
codeword `[true]`, not to the empty codeword: the constructor always adds the
padding symbol, so the heap starts with two entries and one merge happens. -/
theorem claim_C8_counterexample :
    ∃ st : HuffState, huffmanInit 1 [(1, 1)] = some st ∧
      alookup [1] st.table = some [true] ∧
      alookup [1] st.table ≠ some ([] : List Bool) :=
  ⟨exState, huffmanInit_example, by rfl, by decide⟩

/-- C8 (amended): for every successfully constructed coder and every original
alphabet symbol `x` other than the padding symbol, the code table maps the
n-gram `x^n` to a NON-empty codeword — the padding symbol always enlarges the
alphabet to at least two symbols, so no codeword is empty. -/
theorem claim_C8 (n : Nat) (probs : List (Nat × ℚ)) (st : HuffState) (x : Nat)
    (hinit : huffmanInit n probs = some st)
    (hx : x ∈ akeys probs) (hxP : x ≠ PAD) :
    ∃ c : List Bool, alookup (List.replicate n x) st.table = some c ∧ c ≠ [] := by
  obtain ⟨hn1, -, -, -, hlook, hTne, hSome⟩ := huffState_spec hinit hx hxP
  have h1 := hSome (List.replicate n x) (by simp)
    (fun y hy => Or.inl ((List.eq_of_mem_replicate hy) ▸ hx))
  obtain ⟨c, hc⟩ := Option.isSome_iff_exists.1 h1
  exact ⟨c, by rw [hlook]; exact hc, hTne (List.replicate n x, c) (alookup_mem hc)⟩

/-- Witness for the amended C8 at the example coder. -/
theorem claim_C8_witness :
    ∃ c : List Bool, alookup (List.replicate 1 1) exState.table = some c ∧ c ≠ [] :=
  claim_C8 1 [(1, 1)] exState 1 huffmanInit_example (by decide) (by decide)

/-- C7: for every successfully constructed Huffman n-gram coder and every
text over the coder's original alphabet that avoids the padding symbol,
`decode_text (encode_text text)` recovers `text` exactly (both when the
length is a multiple of `n` — no padding — and when padding is added and
stripped). -/
theorem claim_C7 (n : Nat) (probs : List (Nat × ℚ)) (st : HuffState) (text : List Nat)
    (hinit : huffmanInit n probs = some st)
    (htext : ∀ x ∈ text, x ∈ akeys probs)
    (hpad : PAD ∉ text) :
    ∃ bits : List Bool, encodeText st text = .ok bits ∧
      decodeText st bits = some (.ok text) := by
  cases text with
  | nil =>
    refine ⟨[], ?_, ?_⟩
    · show encodeText st [] = .ok []
      simp [encodeText, chunksText, encodeBlocks]
    · show decodeText st [] = some (.ok [])
      have h0 : decodeRun st.tree ([] : List Bool) = some (.ok ([] : List (List Nat))) := by
        show decodeLoop (0 + 1) st.tree [] 0 [] = some (.ok [])
        rw [decodeLoop]
        simp
      simp [decodeText, h0, stripPad]
  | cons x0 text' =>
    obtain ⟨hn1, hn, hIA, htbl, hlook, hTne, hSome⟩ :=
      huffState_spec hinit (htext x0 (by simp))
        (fun h => hpad (by rw [← h]; exact List.mem_cons_self x0 text'))
    obtain ⟨p, k, hpadded, hklen⟩ :
        ∃ p k, (if (x0 :: text').length % n ≠ 0
            then (x0 :: text') ++ List.replicate (n - (x0 :: text').length % n) PAD
            else x0 :: text') = (x0 :: text') ++ List.replicate p PAD ∧
          ((x0 :: text') ++ List.replicate p PAD).length = k * n := by
      by_cases hrem : (x0 :: text').length % n = 0
      · refine ⟨0, (x0 :: text').length / n,
          by simp [show (text'.length + 1) % n = 0 from by simpa using hrem], ?_⟩
        simp only [List.replicate_zero, List.append_nil]
        exact (Nat.div_mul_cancel (Nat.dvd_of_mod_eq_zero hrem)).symm
      · refine ⟨n - (x0 :: text').length % n, (x0 :: text').length / n + 1,
          by simp [show ¬((text'.length + 1) % n = 0) from by simpa using hrem], ?_⟩
        have hdm := Nat.div_add_mod (x0 :: text').length n
        have hlt : (x0 :: text').length % n < n := Nat.mod_lt _ (by omega)
        rw [Nat.mul_comm] at hdm
        simp only [List.length_append, List.length_replicate]
        rw [Nat.add_mul, Nat.one_mul]
        generalize (x0 :: text').length / n * n = Q at hdm ⊢
        generalize hR : (x0 :: text').length % n = R at hdm hlt ⊢
        omega
    have hflat : (chunksText n ((x0 :: text') ++ List.replicate p PAD)).flatten
        = (x0 :: text') ++ List.replicate p PAD :=
      chunksText_flatten n ((x0 :: text') ++ List.replicate p PAD).length _ (le_refl _)
    have hblen : ∀ b ∈ chunksText n ((x0 :: text') ++ List.replicate p PAD), b.length = n :=
      chunksText_length hn1 k _ hklen
    have hbmem : ∀ b ∈ chunksText n ((x0 :: text') ++ List.replicate p PAD),
        ∀ y ∈ b, y ∈ akeys probs ∨ y = PAD := by
      intro b hb y hy
      have hyflat : y ∈ (chunksText n ((x0 :: text') ++ List.replicate p PAD)).flatten :=
        List.mem_flatten.2 ⟨b, hb, hy⟩
      rw [hflat] at hyflat
      rcases List.mem_append.1 hyflat with h | h
      · exact Or.inl (htext y h)
      · exact Or.inr (List.eq_of_mem_replicate h)
    have hlookups : ∀ b ∈ chunksText n ((x0 :: text') ++ List.replicate p PAD),
        (alookup b st.table).isSome := by
      intro b hb
      rw [hlook]
      exact hSome b (hblen b hb) (hbmem b hb)
    obtain ⟨bits, hbits⟩ :=
      encodeGo_ok_of_isSome (chunksText n ((x0 :: text') ++ List.replicate p PAD)) hlookups
    have hblocks : chunksText n ((x0 :: text') ++ List.replicate p PAD)
        = (x0 :: (text' ++ List.replicate p PAD).take (n - 1))
          :: chunksText n ((text' ++ List.replicate p PAD).drop (n - 1)) := by
      show chunksText n (x0 :: (text' ++ List.replicate p PAD)) = _
      simp only [chunksText]
    have hstne : st.table.isEmpty = false := by
      have h1 := hlookups _ (by rw [hblocks]; exact List.mem_cons_self _ _)
      cases htb : st.table with
      | nil =>
        rw [htb] at h1
        simp [alookup] at h1
      | cons a l => rfl
    have hped : pedEncode st.table (chunksText n ((x0 :: text') ++ List.replicate p PAD))
        = .ok bits := by
      rw [pedEncode, hstne]
      simp only [Bool.false_eq_true, if_false]
      exact hbits
    have hencB : encodeBlocks st.table (chunksText n ((x0 :: text') ++ List.replicate p PAD))
        = .ok bits := by
      rw [encodeBlocks_eq hstne]
      exact hped
    have hneT : ∀ q ∈ st.table, q.2 ≠ ([] : List Bool) := by
      intro q hq
      obtain ⟨xq, cq⟩ := q
      exact hTne (xq, cq) (mem_tableFromTree_sub hIA xq cq (by rw [← htbl]; exact hq))
    have hdec : decodeRun st.tree bits
        = some (.ok (chunksText n ((x0 :: text') ++ List.replicate p PAD))) :=
      coder_roundtrip_core hIA htbl hneT hped
    refine ⟨bits, ?_, ?_⟩
    · show encodeText st (x0 :: text') = .ok bits
      simp only [encodeText]
      rw [hn, hpadded]
      exact hencB
    · show decodeText st bits = some (.ok (x0 :: text'))
      simp only [decodeText, hdec]
      rw [hflat, stripPad_append_pad hpad p]

/-- Witness for C7 at the example coder and the one-symbol text `[1]`. -/
theorem claim_C7_witness :
    ∃ bits : List Bool, encodeText exState [1] = .ok bits ∧
      decodeText exState bits = some (.ok [1]) :=
  claim_C7 1 [(1, 1)] exState [1] huffmanInit_example (by decide) (by decide)

end HuffClaims

/-! ### Huffman optimality: Kraft inequality -/

section HuffOptimal

theorem kraftSum_cons (c : List Bool) (cs : List (List Bool)) :
    kraftSum (c :: cs) = ((1 : ℚ) / 2) ^ c.length + kraftSum cs := by
  simp [kraftSum]

theorem kraftSum_nonneg (cs : List (List Bool)) : 0 ≤ kraftSum cs := by
  refine List.sum_nonneg ?_
  intro x hx
  obtain ⟨c, -, rfl⟩ := List.mem_map.1 hx
  positivity

theorem pairwise_filterMap_of {α β : Type} (f : α → Option β) {R : β → β → Prop}
    {l : List α}
    (h : l.Pairwise (fun a b => ∀ x, f a = some x → ∀ y, f b = some y → R x y)) :
    (l.filterMap f).Pairwise R := by
  induction l with
  | nil => simp
  | cons a rest ih =>
    rw [List.pairwise_cons] at h
    obtain ⟨ha, hrest⟩ := h
    cases hfa : f a with
    | none =>
      simp only [List.filterMap_cons, hfa]
      exact ih hrest
    | some x =>
      simp only [List.filterMap_cons, hfa]
      refine List.pairwise_cons.2 ⟨?_, ih hrest⟩
      intro y hy
      obtain ⟨b, hb, hfb⟩ := List.mem_filterMap.1 hy
      exact ha b hb x hfa y hfb

theorem splitCode_some {bit : Bool} {c t : List Bool} (h : splitCode bit c = some t) :
    c = bit :: t := by
  cases c with
  | nil => simp [splitCode] at h
  | cons b r =>
    by_cases hb : b = bit
    · subst hb
      simp [splitCode] at h
      rw [h]
    · simp [splitCode, hb] at h

theorem pairwise_split (bit : Bool) {cs : List (List Bool)}
    (h : cs.Pairwise (fun a b => ¬ a <+: b ∧ ¬ b <+: a)) :
    (cs.filterMap (splitCode bit)).Pairwise (fun a b => ¬ a <+: b ∧ ¬ b <+: a) := by
  refine pairwise_filterMap_of _ (List.Pairwise.imp ?_ h)
  intro a b hab x hax y hby
  rw [splitCode_some hax, splitCode_some hby] at hab
  obtain ⟨h1, h2⟩ := hab
  constructor
  · intro hp
    exact h1 (List.cons_prefix_cons.2 ⟨rfl, hp⟩)
  · intro hp
    exact h2 (List.cons_prefix_cons.2 ⟨rfl, hp⟩)

theorem kraft_split :
    ∀ (cs : List (List Bool)), (∀ c ∈ cs, c ≠ []) →
      kraftSum cs = kraftSum (cs.filterMap (splitCode false)) / 2
        + kraftSum (cs.filterMap (splitCode true)) / 2 := by
  intro cs
  induction cs with
  | nil =>
    intro h
    simp [kraftSum]
  | cons c rest ih =>
    intro h
    have hc := h c (by simp)
    have hrest := ih (fun d hd => h d (List.mem_cons_of_mem _ hd))
    cases c with
    | nil => exact absurd rfl hc
    | cons b t =>
      cases b
      · have e0 : List.filterMap (splitCode false) ((false :: t) :: rest)
            = t :: List.filterMap (splitCode false) rest := by
          simp [splitCode]
        have e1 : List.filterMap (splitCode true) ((false :: t) :: rest)
            = List.filterMap (splitCode true) rest := by
          simp [splitCode]
        rw [e0, e1, kraftSum_cons, kraftSum_cons, hrest]
        simp only [List.length_cons, pow_succ]
        ring
      · have e0 : List.filterMap (splitCode false) ((true :: t) :: rest)
            = List.filterMap (splitCode false) rest := by
          simp [splitCode]
        have e1 : List.filterMap (splitCode true) ((true :: t) :: rest)
            = t :: List.filterMap (splitCode true) rest := by
          simp [splitCode]
        rw [e0, e1, kraftSum_cons, kraftSum_cons, hrest]
        simp only [List.length_cons, pow_succ]
        ring

theorem split_total :
    ∀ (cs : List (List Bool)), (∀ c ∈ cs, c ≠ []) →
      ((cs.filterMap (splitCode false)).map List.length).sum
        + ((cs.filterMap (splitCode true)).map List.length).sum
        + cs.length = (cs.map List.length).sum := by
  intro cs
  induction cs with
  | nil => intro h; rfl
  | cons c rest ih =>
    intro h
    have hc := h c (by simp)
    have hrest := ih (fun d hd => h d (List.mem_cons_of_mem _ hd))
    cases c with
    | nil => exact absurd rfl hc
    | cons b t =>
      cases b
      · have e0 : List.filterMap (splitCode false) ((false :: t) :: rest)
            = t :: List.filterMap (splitCode false) rest := by
          simp [splitCode]
        have e1 : List.filterMap (splitCode true) ((false :: t) :: rest)
            = List.filterMap (splitCode true) rest := by
          simp [splitCode]
        rw [e0, e1]
        simp only [List.map_cons, List.sum_cons, List.length_cons]
        omega
      · have e0 : List.filterMap (splitCode false) ((true :: t) :: rest)
            = List.filterMap (splitCode false) rest := by
          simp [splitCode]
        have e1 : List.filterMap (splitCode true) ((true :: t) :: rest)
            = t :: List.filterMap (splitCode true) rest := by
          simp [splitCode]
        rw [e0, e1]
        simp only [List.map_cons, List.sum_cons, List.length_cons]
        omega

/-- Kraft inequality: the Kraft sum of a pairwise prefix-free list of
codewords is at most `1`. -/
theorem kraft_of_pairwise :
    ∀ (N : Nat) (cs : List (List Bool)), (cs.map List.length).sum ≤ N →
      cs.Pairwise (fun a b => ¬ a <+: b ∧ ¬ b <+: a) → kraftSum cs ≤ 1 := by
  intro N
  induction N with
  | zero =>
    intro cs htot hpw
    cases cs with
    | nil => simp [kraftSum]
    | cons c rest =>
      simp only [List.map_cons, List.sum_cons] at htot
      have hc : c = [] := List.length_eq_zero.1 (by omega)
      subst hc
      cases rest with
      | nil => simp [kraftSum]
      | cons d rest2 =>
        rw [List.pairwise_cons] at hpw
        exact absurd List.nil_prefix (hpw.1 d (by simp)).1
  | succ M ih =>
    intro cs htot hpw
    cases cs with
    | nil => simp [kraftSum]
    | cons c rest =>
      by_cases hnil : ([] : List Bool) ∈ c :: rest
      · rcases List.mem_cons.1 hnil with hce | hmemrest
        · subst hce
          cases rest with
          | nil => simp [kraftSum]
          | cons d rest2 =>
            rw [List.pairwise_cons] at hpw
            exact absurd List.nil_prefix (hpw.1 d (by simp)).1
        · rw [List.pairwise_cons] at hpw
          exact absurd List.nil_prefix (hpw.1 [] hmemrest).2
      · have hne : ∀ c' ∈ c :: rest, c' ≠ [] := fun c' hm he => hnil (he ▸ hm)
        rw [kraft_split (c :: rest) hne]
        have htot2 := split_total (c :: rest) hne
        have hlen1 : 1 ≤ (c :: rest).length := by simp
        have h0 := ih ((c :: rest).filterMap (splitCode false)) (by omega)
          (pairwise_split false hpw)
        have h1 := ih ((c :: rest).filterMap (splitCode true)) (by omega)
          (pairwise_split true hpw)
        linarith

theorem kraftW_cons (x : ℚ × ℕ) (wl : List (ℚ × ℕ)) :
    kraftW (x :: wl) = ((1 : ℚ) / 2) ^ x.2 + kraftW wl := by
  simp [kraftW]

theorem costW_cons (x : ℚ × ℕ) (wl : List (ℚ × ℕ)) :
    costW (x :: wl) = x.1 * (x.2 : ℚ) + costW wl := by
  simp [costW]

theorem kraftW_append (a b : List (ℚ × ℕ)) : kraftW (a ++ b) = kraftW a + kraftW b := by
  simp [kraftW]

theorem costW_append (a b : List (ℚ × ℕ)) : costW (a ++ b) = costW a + costW b := by
  simp [costW]

theorem kraftW_nonneg (wl : List (ℚ × ℕ)) : 0 ≤ kraftW wl := by
  refine List.sum_nonneg ?_
  intro y hy
  obtain ⟨x, -, rfl⟩ := List.mem_map.1 hy
  positivity

theorem costW_nonneg {wl : List (ℚ × ℕ)} (h : ∀ x ∈ wl, 0 ≤ x.1) : 0 ≤ costW wl := by
  refine List.sum_nonneg ?_
  intro y hy
  obtain ⟨x, hx, rfl⟩ := List.mem_map.1 hy
  exact mul_nonneg (h x hx) (by positivity)

theorem kraftW_eq_snd (wl : List (ℚ × ℕ)) :
    kraftW wl = ((wl.map Prod.snd).map (fun l => ((1 : ℚ) / 2) ^ l)).sum := by
  rw [kraftW, List.map_map]
  rfl

theorem kraftW_perm {a b : List (ℚ × ℕ)} (h : a.Perm b) : kraftW a = kraftW b :=
  (h.map _).sum_eq

theorem costW_perm {a b : List (ℚ × ℕ)} (h : a.Perm b) : costW a = costW b :=
  (h.map _).sum_eq

/-- Lift a permutation of projections to a permutation of the original list:
if `l.map f` is a permutation of `m2`, some permutation `l2` of `l` maps
exactly to `m2`. -/
theorem exists_perm_of_map_perm {α β : Type} (f : α → β) :
    ∀ {m1 m2 : List β}, m1.Perm m2 → ∀ l : List α, l.map f = m1 →
      ∃ l2, l.Perm l2 ∧ l2.map f = m2 := by
  intro m1 m2 h
  induction h with
  | nil =>
    intro l hm
    exact ⟨l, List.Perm.refl l, hm⟩
  | cons x hperm ih =>
    intro l hm
    cases l with
    | nil => simp at hm
    | cons a l' =>
      simp only [List.map_cons, List.cons.injEq] at hm
      obtain ⟨hfa, hmap⟩ := hm
      obtain ⟨l2, hp, hm2⟩ := ih l' hmap
      exact ⟨a :: l2, List.Perm.cons a hp, by simp [hm2, hfa]⟩
  | swap x y t =>
    intro l hm
    cases l with
    | nil => simp at hm
    | cons a l' =>
      cases l' with
      | nil => simp at hm
      | cons b l'' =>
        simp only [List.map_cons, List.cons.injEq] at hm
        obtain ⟨hfa, hfb, hmap⟩ := hm
        exact ⟨b :: a :: l'', List.Perm.swap b a l'', by simp [hfa, hfb, hmap]⟩
  | trans h1 h2 ih1 ih2 =>
    intro l hm
    obtain ⟨lmid, hp1, hm1⟩ := ih1 l hm
    obtain ⟨l2, hp2, hm2⟩ := ih2 lmid hm1
    exact ⟨l2, hp1.trans hp2, hm2⟩

/-- Exchange phase: move a maximal length onto the slot with minimal weight
`w0` without increasing the weighted cost; the multiset of lengths and the
positional weights of the rest are unchanged. -/
theorem swap_to_front :
    ∀ (wl : List (ℚ × ℕ)) (w0 : ℚ) (l0 : ℕ), 0 ≤ w0 → (∀ x ∈ wl, w0 ≤ x.1) →
      ∃ (l0' : ℕ) (wl' : List (ℚ × ℕ)),
        (l0' :: wl'.map Prod.snd).Perm (l0 :: wl.map Prod.snd) ∧
        wl'.map Prod.fst = wl.map Prod.fst ∧
        (∀ x ∈ wl', x.2 ≤ l0') ∧
        w0 * (l0' : ℚ) + costW wl' ≤ w0 * (l0 : ℚ) + costW wl := by
  intro wl
  induction wl with
  | nil =>
    intro w0 l0 hw0 hmin
    exact ⟨l0, [], List.Perm.refl _, rfl, by simp, le_refl _⟩
  | cons vm rest ih =>
    intro w0 l0 hw0 hmin
    obtain ⟨l0', rest', hperm, hwts, hbd, hcost⟩ :=
      ih w0 l0 hw0 (fun x hx => hmin x (List.mem_cons_of_mem _ hx))
    by_cases hm : vm.2 ≤ l0'
    · refine ⟨l0', vm :: rest', ?_, by simp [hwts], ?_, ?_⟩
      · exact (List.Perm.swap vm.2 l0' _).trans
          ((List.Perm.cons vm.2 hperm).trans (List.Perm.swap l0 vm.2 _))
      · intro x hx
        rcases List.mem_cons.1 hx with rfl | hx'
        · exact hm
        · exact hbd x hx'
      · rw [costW_cons, costW_cons]
        linarith [hcost]
    · push_neg at hm
      refine ⟨vm.2, (vm.1, l0') :: rest', ?_, by simp [hwts], ?_, ?_⟩
      · exact (List.Perm.cons vm.2 hperm).trans (List.Perm.swap l0 vm.2 _)
      · intro x hx
        rcases List.mem_cons.1 hx with rfl | hx'
        · exact le_of_lt hm
        · exact le_trans (hbd x hx') (le_of_lt hm)
      · rw [costW_cons, costW_cons]
        have hv : w0 ≤ vm.1 := hmin vm (by simp)
        have hql : ((l0' : ℚ)) ≤ ((vm.2 : ℚ)) := by exact_mod_cast le_of_lt hm
        nlinarith [hcost, mul_nonneg (sub_nonneg.2 hv) (sub_nonneg.2 hql)]

/-- Every Kraft sum over lengths bounded by `L` is a natural multiple of
`(1/2)^L`. -/
theorem kraftW_dyadic :
    ∀ (wl : List (ℚ × ℕ)) (L : ℕ), (∀ x ∈ wl, x.2 ≤ L) →
      ∃ K : ℕ, kraftW wl = (K : ℚ) * ((1 : ℚ) / 2) ^ L := by
  intro wl
  induction wl with
  | nil =>
    intro L h
    exact ⟨0, by simp [kraftW]⟩
  | cons x rest ih =>
    intro L h
    have hx2 : x.2 ≤ L := h x (by simp)
    obtain ⟨d, hd⟩ : ∃ d, L = d + x.2 := ⟨L - x.2, by omega⟩
    subst hd
    obtain ⟨K, hK⟩ := ih (d + x.2) (fun y hy => h y (List.mem_cons_of_mem _ hy))
    refine ⟨2 ^ d + K, ?_⟩
    rw [kraftW_cons, hK]
    have h1 : ((1 : ℚ) / 2) ^ x.2 = (2 ^ d : ℚ) * ((1 : ℚ) / 2) ^ (d + x.2) := by
      rw [pow_add, ← mul_assoc, show ((2 : ℚ) ^ d) * ((1 : ℚ) / 2) ^ d = 1 from by
        rw [← mul_pow]; norm_num, one_mul]
    rw [h1]
    push_cast
    ring

/-- Dyadic shrink: a strictly maximal length can be lowered to the second
maximum without violating the Kraft inequality. -/
theorem dyadic_lower {L0 L1 : ℕ} {wl : List (ℚ × ℕ)}
    (hbd : ∀ x ∈ wl, x.2 ≤ L1)
    (hK : ((1 : ℚ) / 2) ^ L0 + ((1 : ℚ) / 2) ^ L1 + kraftW wl ≤ 1) :
    ((1 : ℚ) / 2) ^ L1 + ((1 : ℚ) / 2) ^ L1 + kraftW wl ≤ 1 := by
  by_cases heq : L0 = L1
  · rw [heq] at hK
    exact hK
  obtain ⟨K, hKq⟩ := kraftW_dyadic wl L1 hbd
  have hpos0 : (0 : ℚ) < ((1 : ℚ) / 2) ^ L0 := by positivity
  have hlt : ((K : ℚ) + 1) * ((1 : ℚ) / 2) ^ L1 < 1 := by
    have he : ((K : ℚ) + 1) * ((1 : ℚ) / 2) ^ L1 = ((1 : ℚ) / 2) ^ L1 + kraftW wl := by
      rw [hKq]
      ring
    linarith
  have hhalf : ((1 : ℚ) / 2) ^ L1 = ((2 : ℚ) ^ L1)⁻¹ := by
    rw [div_pow, one_pow, one_div]
  have h2pos : (0 : ℚ) < 2 ^ L1 := by positivity
  have h2 : ((K : ℚ) + 1) < 2 ^ L1 := by
    rw [hhalf] at hlt
    calc ((K : ℚ) + 1) = ((K : ℚ) + 1) * (2 ^ L1)⁻¹ * 2 ^ L1 := by field_simp
    _ < 1 * 2 ^ L1 := mul_lt_mul_of_pos_right hlt h2pos
    _ = 2 ^ L1 := one_mul _
  have h3 : (K + 2 : ℕ) ≤ 2 ^ L1 := by
    have h4 : (K + 1 : ℕ) < 2 ^ L1 := by exact_mod_cast h2
    omega
  have he2 : ((1 : ℚ) / 2) ^ L1 + ((1 : ℚ) / 2) ^ L1 + kraftW wl
      = ((K : ℚ) + 2) * ((1 : ℚ) / 2) ^ L1 := by
    rw [hKq]
    ring
  rw [he2, hhalf]
  have h5 : ((K : ℚ) + 2) ≤ 2 ^ L1 := by exact_mod_cast h3
  calc ((K : ℚ) + 2) * (2 ^ L1 : ℚ)⁻¹ ≤ (2 ^ L1 : ℚ) * (2 ^ L1 : ℚ)⁻¹ :=
        mul_le_mul_of_nonneg_right h5 (by positivity)
  _ = 1 := by field_simp

/-- The heart of the exchange argument: any Kraft-feasible length assignment
over the two minimal weights and the rest can be turned into one for the
merged instance whose cost is smaller by exactly the merge charge. -/
theorem merge_bound (w0 w1 : ℚ) (l0 l1 : ℕ) (wl : List (ℚ × ℕ))
    (hw0 : 0 ≤ w0) (hw1 : 0 ≤ w1) (h01 : w0 ≤ w1)
    (hmin1 : ∀ x ∈ wl, w1 ≤ x.1)
    (hK : ((1 : ℚ) / 2) ^ l0 + ((1 : ℚ) / 2) ^ l1 + kraftW wl ≤ 1) :
    ∃ (lm : ℕ) (wl' : List (ℚ × ℕ)),
      wl'.map Prod.fst = wl.map Prod.fst ∧
      ((1 : ℚ) / 2) ^ lm + kraftW wl' ≤ 1 ∧
      (w0 + w1) * ((lm : ℚ) + 1) + costW wl' ≤ w0 * (l0 : ℚ) + w1 * (l1 : ℚ) + costW wl := by
  obtain ⟨L0, wla, hpermA, hwtsA, hbdA, hcostA⟩ :=
    swap_to_front ((w1, l1) :: wl) w0 l0 hw0 (by
      intro x hx
      rcases List.mem_cons.1 hx with rfl | hx'
      · exact h01
      · exact le_trans h01 (hmin1 x hx'))
  cases wla with
  | nil => simp at hwtsA
  | cons q wlb =>
    simp only [List.map_cons, List.cons.injEq] at hwtsA
    obtain ⟨hq1, hwtsB⟩ := hwtsA
    have hminb : ∀ x ∈ wlb, w1 ≤ x.1 := by
      intro x hx
      have hmm : x.1 ∈ wlb.map Prod.fst := List.mem_map_of_mem _ hx
      rw [hwtsB] at hmm
      obtain ⟨y, hy, hyx⟩ := List.mem_map.1 hmm
      rw [← hyx]
      exact hmin1 y hy
    obtain ⟨L1, wl', hpermB, hwtsB', hbdB, hcostB⟩ := swap_to_front wlb w1 q.2 hw1 hminb
    have hL1mem : L1 ∈ q.2 :: wlb.map Prod.snd :=
      hpermB.mem_iff.1 (List.mem_cons_self _ _)
    have hbdA' : ∀ z ∈ q.2 :: wlb.map Prod.snd, z ≤ L0 := by
      intro z hz
      rcases List.mem_cons.1 hz with rfl | hz'
      · exact hbdA q (by simp)
      · obtain ⟨y, hy, rfl⟩ := List.mem_map.1 hz'
        exact hbdA y (List.mem_cons_of_mem _ hy)
    have hL1L0 : L1 ≤ L0 := hbdA' L1 hL1mem
    have hA : ((1 : ℚ) / 2) ^ L0 + kraftW (q :: wlb)
        = ((1 : ℚ) / 2) ^ l0 + ((1 : ℚ) / 2) ^ l1 + kraftW wl := by
      have hs := (hpermA.map (fun l => ((1 : ℚ) / 2) ^ l)).sum_eq
      simp only [List.map_cons, List.sum_cons] at hs
      rw [kraftW_eq_snd (q :: wlb), kraftW_eq_snd wl]
      simp only [List.map_cons, List.sum_cons]
      linarith [hs]
    have hB : ((1 : ℚ) / 2) ^ L1 + kraftW wl'
        = ((1 : ℚ) / 2) ^ q.2 + kraftW wlb := by
      have hs := (hpermB.map (fun l => ((1 : ℚ) / 2) ^ l)).sum_eq
      simp only [List.map_cons, List.sum_cons] at hs
      rw [kraftW_eq_snd wl', kraftW_eq_snd wlb]
      linarith [hs]
    have hKnew : ((1 : ℚ) / 2) ^ L0 + ((1 : ℚ) / 2) ^ L1 + kraftW wl' ≤ 1 := by
      rw [kraftW_cons] at hA
      linarith [hA, hB, hK]
    have hbdB' : ∀ x ∈ wl', x.2 ≤ L1 := hbdB
    have hKtwo := dyadic_lower hbdB' hKnew
    have hL1pos : 1 ≤ L1 := by
      by_contra hc
      push_neg at hc
      interval_cases L1
      simp at hKtwo
      have := kraftW_nonneg wl'
      linarith
    obtain ⟨M, hM⟩ : ∃ M, L1 = M + 1 := ⟨L1 - 1, by omega⟩
    subst hM
    refine ⟨M, wl', by rw [hwtsB', hwtsB], ?_, ?_⟩
    · have hps : ((1 : ℚ) / 2) ^ (M + 1) * 2 = ((1 : ℚ) / 2) ^ M := by
        rw [pow_succ]
        ring
      linarith [hKtwo]
    · have hcN : (((M : ℚ) + 1)) = ((M + 1 : ℕ) : ℚ) := by push_cast; ring
      have hQL : ((M + 1 : ℕ) : ℚ) ≤ (L0 : ℚ) := by exact_mod_cast hL1L0
      have hcA : costW ((w1, l1) :: wl) = w1 * (l1 : ℚ) + costW wl := costW_cons _ _
      have hcQ : costW (q :: wlb) = w1 * (q.2 : ℚ) + costW wlb := by
        rw [costW_cons, hq1]
      rw [hcA] at hcostA
      rw [hcQ] at hcostA
      nlinarith [hcostA, hcostB, hQL, hw0]

theorem huffStep_pops {st : List HuffItem × Nat} {i0 i1 : HuffItem}
    {h1 h2 : List HuffItem}
    (hp0 : popMin st.1 = some (i0, h1)) (hp1 : popMin h1 = some (i1, h2)) :
    huffStep st = (h2 ++ [(i0.1 + i1.1, st.2, mergedTable i0.2.2 i1.2.2)], st.2 + 1) := by
  unfold huffStep
  simp only [hp0, hp1]

theorem pops_of_two_le {st : List HuffItem × Nat} (hlen : 2 ≤ st.1.length) :
    ∃ i0 h1 i1 h2, popMin st.1 = some (i0, h1) ∧ popMin h1 = some (i1, h2) := by
  cases hp0 : popMin st.1 with
  | none =>
    rw [popMin_none_iff.1 hp0] at hlen
    simp at hlen
  | some p =>
    obtain ⟨i0, h1⟩ := p
    have hperm := popMin_perm hp0
    have hlen1 : 1 ≤ h1.length := by
      have hle := hperm.length_eq
      simp at hle
      omega
    cases hp1 : popMin h1 with
    | none =>
      rw [popMin_none_iff.1 hp1] at hlen1
      simp at hlen1
    | some q =>
      obtain ⟨i1, h2⟩ := q
      exact ⟨i0, h1, i1, h2, rfl, hp1⟩

theorem stepsCost_succ {f : Nat} {st : List HuffItem × Nat} {i0 i1 : HuffItem}
    {h1 h2 : List HuffItem} (hlen : ¬ st.1.length ≤ 1)
    (hp0 : popMin st.1 = some (i0, h1)) (hp1 : popMin h1 = some (i1, h2)) :
    stepsCost (f + 1) st = i0.1 + i1.1 + stepsCost f (huffStep st) := by
  simp only [stepsCost, hp0, hp1, if_neg hlen]

/-- Lower bound: the total merge charge of the Huffman loop is at most the
weighted cost of any length assignment satisfying the Kraft inequality. -/
theorem stepsCost_lb :
    ∀ (fuel : Nat) (st : List HuffItem × Nat) (wl : List (ℚ × ℕ)),
      (∀ i ∈ st.1, 0 ≤ i.1) →
      st.1.length ≤ fuel →
      wl.map Prod.fst = st.1.map (fun i => i.1) →
      kraftW wl ≤ 1 →
      stepsCost fuel st ≤ costW wl := by
  intro fuel
  induction fuel with
  | zero =>
    intro st wl hw hlen hfst hK
    show (0 : ℚ) ≤ costW wl
    refine costW_nonneg ?_
    intro x hx
    have hmm : x.1 ∈ wl.map Prod.fst := List.mem_map_of_mem _ hx
    rw [hfst] at hmm
    obtain ⟨i, hi, hix⟩ := List.mem_map.1 hmm
    rw [← hix]
    exact hw i hi
  | succ f ih =>
    intro st wl hw hlen hfst hK
    by_cases hshort : st.1.length ≤ 1
    · have h0 : stepsCost (f + 1) st = 0 := by
        simp only [stepsCost, if_pos hshort]
      rw [h0]
      refine costW_nonneg ?_
      intro x hx
      have hmm : x.1 ∈ wl.map Prod.fst := List.mem_map_of_mem _ hx
      rw [hfst] at hmm
      obtain ⟨i, hi, hix⟩ := List.mem_map.1 hmm
      rw [← hix]
      exact hw i hi
    · have h2le : 2 ≤ st.1.length := by omega
      obtain ⟨i0, h1, i1, h2, hp0, hp1⟩ := pops_of_two_le h2le
      have hperm0 := popMin_perm hp0
      have hperm1 := popMin_perm hp1
      have hperm : st.1.Perm (i0 :: i1 :: h2) := hperm0.trans (List.Perm.cons i0 hperm1)
      have hmin0 := popMin_min hp0
      have hmin1 := popMin_min hp1
      have hw01 : i0.1 ≤ i1.1 := by
        have hi1h1 : i1 ∈ h1 := hperm1.mem_iff.2 (by simp)
        have hnl := hmin0 i1 hi1h1
        unfold heapLt at hnl
        push_neg at hnl
        exact hnl.1
      have hminw1 : ∀ x ∈ h2, i1.1 ≤ x.1 := by
        intro x hx
        have hnl := hmin1 x hx
        unfold heapLt at hnl
        push_neg at hnl
        exact hnl.1
      have hmperm : (wl.map Prod.fst).Perm ((i0 :: i1 :: h2).map (fun i => i.1)) := by
        rw [hfst]
        exact hperm.map _
      obtain ⟨wlp, hwlperm, hwlpmap⟩ := exists_perm_of_map_perm Prod.fst hmperm wl rfl
      cases wlp with
      | nil => simp at hwlpmap
      | cons p0 wlp' =>
        cases wlp' with
        | nil => simp at hwlpmap
        | cons p1 wl2 =>
          simp only [List.map_cons, List.cons.injEq] at hwlpmap
          obtain ⟨hp0w, hp1w, hwl2map⟩ := hwlpmap
          have hminwl2 : ∀ x ∈ wl2, i1.1 ≤ x.1 := by
            intro x hx
            have hmm : x.1 ∈ wl2.map Prod.fst := List.mem_map_of_mem _ hx
            rw [hwl2map] at hmm
            obtain ⟨j, hj, hjx⟩ := List.mem_map.1 hmm
            rw [← hjx]
            exact hminw1 j hj
          have hw0 : 0 ≤ i0.1 := hw i0 (hperm.mem_iff.2 (by simp))
          have hw1 : 0 ≤ i1.1 := hw i1 (hperm.mem_iff.2 (by simp))
          have hKp : ((1 : ℚ) / 2) ^ p0.2 + ((1 : ℚ) / 2) ^ p1.2 + kraftW wl2 ≤ 1 := by
            have hkp := kraftW_perm hwlperm
            rw [kraftW_cons, kraftW_cons] at hkp
            linarith [hK, hkp]
          obtain ⟨lm, wl', hwl'map, hK', hcost'⟩ :=
            merge_bound i0.1 i1.1 p0.2 p1.2 wl2 hw0 hw1 hw01 hminwl2 hKp
          have hstep1 : (huffStep st).1
              = h2 ++ [(i0.1 + i1.1, st.2, mergedTable i0.2.2 i1.2.2)] := by
            rw [huffStep_pops hp0 hp1]
          have hlen2 := hperm.length_eq
          have hrec := ih (huffStep st) (wl' ++ [(i0.1 + i1.1, lm)])
            (by
              intro i hi
              rw [hstep1] at hi
              rcases List.mem_append.1 hi with h | h
              · exact hw i (hperm.mem_iff.2 (by simp [h]))
              · simp at h
                rw [h]
                show (0 : ℚ) ≤ i0.1 + i1.1
                linarith)
            (by
              rw [hstep1]
              simp at hlen2 ⊢
              omega)
            (by
              rw [hstep1]
              simp only [List.map_append, List.map_cons, List.map_nil]
              rw [hwl'map, hwl2map])
            (by
              rw [kraftW_append, kraftW_cons,
                show kraftW ([] : List (ℚ × ℕ)) = 0 from rfl]
              linarith [hK'])
          rw [stepsCost_succ hshort hp0 hp1]
          have hcwl : costW wl = i0.1 * (p0.2 : ℚ) + i1.1 * (p1.2 : ℚ) + costW wl2 := by
            rw [costW_perm hwlperm, costW_cons, costW_cons, hp0w, hp1w]
            ring
          rw [costW_append, costW_cons,
            show costW ([] : List (ℚ × ℕ)) = 0 from rfl] at hrec
          have hrec2 : stepsCost f (huffStep st)
              ≤ costW wl' + ((i0.1 + i1.1) * (lm : ℚ) + 0) := hrec
          rw [hcwl]
          linarith [hrec2, hcost']

theorem itemCost_cons (p : List Nat → ℚ) (e : List Nat × List Bool)
    (t : List (List Nat × List Bool)) :
    itemCost p (e :: t) = p e.1 * (e.2.length : ℚ) + itemCost p t := by
  simp [itemCost]

theorem itemCost_append (p : List Nat → ℚ) (a b : List (List Nat × List Bool)) :
    itemCost p (a ++ b) = itemCost p a + itemCost p b := by
  simp [itemCost]

theorem itemCost_map_bit (p : List Nat → ℚ) (b : Bool) :
    ∀ (t : List (List Nat × List Bool)),
      itemCost p (t.map (fun e => (e.1, b :: e.2)))
        = itemCost p t + ((akeys t).map p).sum := by
  intro t
  induction t with
  | nil => simp [itemCost, akeys]
  | cons e rest ih =>
    rw [List.map_cons, itemCost_cons, itemCost_cons, ih]
    simp only [akeys, List.map_cons, List.sum_cons, List.length_cons]
    push_cast
    ring

theorem itemCost_merged (p : List Nat → ℚ) {t0 t1 : List (List Nat × List Bool)}
    (hnd : (akeys t0 ++ akeys t1).Nodup) :
    itemCost p (mergedTable t0 t1)
      = itemCost p t0 + ((akeys t0).map p).sum
        + (itemCost p t1 + ((akeys t1).map p).sum) := by
  rw [mergedTable_eq hnd, itemCost_append, itemCost_map_bit, itemCost_map_bit]

theorem itemCostSum_cons (p : List Nat → ℚ) (i : HuffItem) (h : List HuffItem) :
    itemCostSum p (i :: h) = itemCost p i.2.2 + itemCostSum p h := by
  simp [itemCostSum]

theorem itemCostSum_append (p : List Nat → ℚ) (a b : List HuffItem) :
    itemCostSum p (a ++ b) = itemCostSum p a + itemCostSum p b := by
  simp [itemCostSum]

theorem itemCostSum_perm (p : List Nat → ℚ) {a b : List HuffItem} (h : a.Perm b) :
    itemCostSum p a = itemCostSum p b :=
  (h.map _).sum_eq

/-- One merge step: the total table cost grows by exactly the two popped
weights, and the weight invariant is preserved. -/
theorem huffStep_account {dom : List (List Nat)} (p : List Nat → ℚ) (hdnd : dom.Nodup)
    {st : List HuffItem × Nat} (hok : HeapOk dom st.1) (hwok : WeightOk p st.1)
    {i0 i1 : HuffItem} {h1 h2 : List HuffItem}
    (hp0 : popMin st.1 = some (i0, h1)) (hp1 : popMin h1 = some (i1, h2)) :
    itemCostSum p (huffStep st).1 = itemCostSum p st.1 + (i0.1 + i1.1) ∧
      WeightOk p (huffStep st).1 := by
  have hperm : st.1.Perm (i0 :: i1 :: h2) :=
    (popMin_perm hp0).trans (List.Perm.cons i0 (popMin_perm hp1))
  have hstep1 : (huffStep st).1
      = h2 ++ [(i0.1 + i1.1, st.2, mergedTable i0.2.2 i1.2.2)] := by
    rw [huffStep_pops hp0 hp1]
  have hnodupflat : ((st.1.map (fun i => akeys i.2.2)).flatten).Nodup :=
    (hok.2.nodup_iff).2 hdnd
  have hflat2 : (((i0 :: i1 :: h2).map (fun i => akeys i.2.2)).flatten).Nodup :=
    ((hperm.map (fun i => akeys i.2.2)).flatten.nodup_iff).1 hnodupflat
  have hnd01 : (akeys i0.2.2 ++ akeys i1.2.2).Nodup := by
    have hsub : (akeys i0.2.2 ++ akeys i1.2.2).Sublist
        (((i0 :: i1 :: h2).map (fun i => akeys i.2.2)).flatten) := by
      simp only [List.map_cons, List.flatten_cons]
      rw [← List.append_assoc]
      exact List.sublist_append_left _ _
    exact hsub.nodup hflat2
  have hwi0 : i0.1 = ((akeys i0.2.2).map p).sum := hwok i0 (hperm.mem_iff.2 (by simp))
  have hwi1 : i1.1 = ((akeys i1.2.2).map p).sum := hwok i1 (hperm.mem_iff.2 (by simp))
  constructor
  · rw [hstep1, itemCostSum_append, itemCostSum_perm p hperm,
      itemCostSum_cons p i0, itemCostSum_cons p i1,
      itemCostSum_cons p ((i0.1 + i1.1, st.2, mergedTable i0.2.2 i1.2.2) : HuffItem),
      show itemCostSum p ([] : List HuffItem) = 0 from rfl,
      show itemCost p ((i0.1 + i1.1, st.2, mergedTable i0.2.2 i1.2.2) : HuffItem).2.2
        = itemCost p (mergedTable i0.2.2 i1.2.2) from rfl,
      itemCost_merged p hnd01, ← hwi0, ← hwi1]
    ring
  · intro i hi
    rw [hstep1] at hi
    rcases List.mem_append.1 hi with h | h
    · exact hwok i (hperm.mem_iff.2 (by simp [h]))
    · simp at h
      rw [h]
      show i0.1 + i1.1 = ((akeys (mergedTable i0.2.2 i1.2.2)).map p).sum
      rw [mergedTable_akeys hnd01, List.map_append, List.sum_append, ← hwi0, ← hwi1]

/-- Accounting along the whole loop: the final total table cost is the initial
one plus the total merge charge. -/
theorem huffLoop_account {dom : List (List Nat)} (p : List Nat → ℚ) (hdnd : dom.Nodup) :
    ∀ (fuel : Nat) (st : List HuffItem × Nat),
      HeapOk dom st.1 → WeightOk p st.1 → st.1.length ≤ fuel →
      itemCostSum p (huffLoop fuel st).1 = itemCostSum p st.1 + stepsCost fuel st := by
  intro fuel
  induction fuel with
  | zero =>
    intro st hok hwok hlen
    have h0 : st.1 = [] := List.length_eq_zero.1 (by omega)
    show itemCostSum p (huffLoop 0 st).1 = itemCostSum p st.1 + stepsCost 0 st
    rw [show huffLoop 0 st = st from rfl, show stepsCost 0 st = 0 from rfl, add_zero]
  | succ f ih =>
    intro st hok hwok hlen
    by_cases hshort : st.1.length ≤ 1
    · rw [huffLoop_of_short hshort (f + 1)]
      have h0 : stepsCost (f + 1) st = 0 := by
        simp only [stepsCost, if_pos hshort]
      rw [h0, add_zero]
    · have h2le : 2 ≤ st.1.length := by omega
      obtain ⟨i0, h1x, i1, h2x, hp0, hp1⟩ := pops_of_two_le h2le
      obtain ⟨hacc, hwok'⟩ := huffStep_account p hdnd hok hwok hp0 hp1
      obtain ⟨hok', hlen'⟩ := huffStep_heapOk hdnd hok h2le
      have hloopstep : huffLoop (f + 1) st = huffLoop f (huffStep st) := by
        rw [huffLoop, if_neg hshort]
      rw [hloopstep, ih (huffStep st) hok' hwok' (by omega), hacc,
        stepsCost_succ hshort hp0 hp1]
      ring

/-- The initial heap satisfies the heap invariant over the n-gram domain. -/
theorem huffHeap0_heapOk (ngp : List (List Nat × ℚ)) :
    HeapOk (akeys ngp) (huffHeap0 ngp) := by
  constructor
  · intro i hi
    unfold huffHeap0 at hi
    obtain ⟨e, -, rfl⟩ := List.mem_map.1 hi
    exact ⟨by simp [akeys], by simp⟩
  · rw [huffHeap0_domains, flatten_singletons Prod.fst]
    exact List.Perm.refl _

/-- The initial heap satisfies the weight invariant: each entry's weight is
the probability of its single n-gram. -/
theorem huffHeap0_weightOk {ngp : List (List Nat × ℚ)} (hnd : (akeys ngp).Nodup) :
    WeightOk (fun g => (alookup g ngp).getD 0) (huffHeap0 ngp) := by
  intro i hi
  unfold huffHeap0 at hi
  obtain ⟨e, he, rfl⟩ := List.mem_map.1 hi
  have he2 : e.2 ∈ ngp := by
    have h1 : e.2 ∈ ngp.enum.map Prod.snd := List.mem_map_of_mem _ he
    rw [List.enum_map_snd] at h1
    exact h1
  show e.2.2 = ((akeys [(e.2.1, ([] : List Bool))]).map
      (fun g => (alookup g ngp).getD 0)).sum
  have hlk : alookup e.2.1 ngp = some e.2.2 := by
    refine mem_alookup_of_nodup hnd ?_
    rw [show (e.2.1, e.2.2) = e.2 from rfl]
    exact he2
  simp [akeys, hlk]

/-- All initial table costs vanish: every initial codeword is empty. -/
theorem itemCostSum_heap0 (p : List Nat → ℚ) (ngp : List (List Nat × ℚ)) :
    itemCostSum p (huffHeap0 ngp) = 0 := by
  unfold itemCostSum huffHeap0
  rw [List.map_map]
  refine List.sum_eq_zero ?_
  intro x hx
  obtain ⟨e, -, rfl⟩ := List.mem_map.1 hx
  show itemCost p [(e.2.1, ([] : List Bool))] = 0
  simp [itemCost]

theorem mem_aupd_sub {κ ν : Type} [DecidableEq κ] {k : κ} {v : ν} :
    ∀ {l : List (κ × ν)} {x : κ × ν}, x ∈ aupd k v l → x = (k, v) ∨ x ∈ l := by
  intro l
  induction l with
  | nil =>
    intro x hx
    simp [aupd] at hx
    exact Or.inl hx
  | cons e rest ih =>
    intro x hx
    obtain ⟨k', v'⟩ := e
    by_cases h : k' = k
    · simp only [aupd, if_pos h] at hx
      rcases List.mem_cons.1 hx with rfl | hx'
      · exact Or.inl rfl
      · exact Or.inr (List.mem_cons_of_mem _ hx')
    · simp only [aupd, if_neg h] at hx
      rcases List.mem_cons.1 hx with rfl | hx'
      · exact Or.inr (by simp)
      · rcases ih hx' with h1 | h1
        · exact Or.inl h1
        · exact Or.inr (List.mem_cons_of_mem _ h1)

/-- Every extended probability is nonnegative (given a valid input
distribution). -/
theorem huffPExt_val_nonneg {n : Nat} {probs : List (Nat × ℚ)}
    (hv : huffValid n probs) :
    ∀ e ∈ huffPExt probs, 0 ≤ e.2 := by
  intro e he
  unfold huffPExt at he
  rcases mem_aupd_sub he with rfl | he'
  · norm_num
  · have hm := mem_fromList he'
    obtain ⟨q, hq, rfl⟩ := List.mem_map.1 hm
    show 0 ≤ q.2 * ((1 - 1 / 10000000000) / (probs.map Prod.snd).sum)
    have hq2 : 0 < q.2 := hv.2.1 q hq
    have htot : 0 < (probs.map Prod.snd).sum := by
      have habs := hv.2.2
      rw [abs_le] at habs
      linarith [habs.1]
    have hnum : (0 : ℚ) ≤ 1 - 1 / 10000000000 := by norm_num
    exact mul_nonneg (le_of_lt hq2) (div_nonneg hnum (le_of_lt htot))

/-- Every n-gram probability is nonnegative. -/
theorem huffNgramP_nonneg {n : Nat} {probs : List (Nat × ℚ)}
    (hv : huffValid n probs) :
    ∀ e ∈ huffNgramP n probs, 0 ≤ e.2 := by
  intro e he
  have hm := mem_fromList he
  obtain ⟨g, -, rfl⟩ := List.mem_map.1 hm
  show 0 ≤ (g.map (fun s => (alookup s (huffPExt probs)).getD 0)).prod
  refine List.prod_nonneg ?_
  intro q hq
  obtain ⟨s, -, rfl⟩ := List.mem_map.1 hq
  cases hl : alookup s (huffPExt probs) with
  | none => simp
  | some v =>
    simp only [Option.getD_some]
    exact huffPExt_val_nonneg hv (s, v) (alookup_mem hl)

/-- C4: Huffman optimality.  For every successfully constructed coder and
every competitor assignment `C` of codewords to n-grams that is prefix-free
on the coder's n-gram alphabet (no codeword of one n-gram is a prefix of
another's), the coder's expected code length is at most the competitor's
probability-weighted expected codeword length. -/
theorem claim_C4 (n : Nat) (probs : List (Nat × ℚ)) (st : HuffState)
    (hinit : huffmanInit n probs = some st)
    (C : List Nat → List Bool)
    (hC : ∀ g1 ∈ akeys st.ngramP, ∀ g2 ∈ akeys st.ngramP,
      g1 ≠ g2 → ¬ C g1 <+: C g2) :
    expectedCodeLength st
      ≤ (st.ngramP.map (fun e => e.2 * ((C e.1).length : ℚ))).sum := by
  obtain ⟨hv, hn, hngp, htree, htbl⟩ := huffmanInit_some hinit
  have hnd : (akeys (huffNgramP n probs)).Nodup := by
    unfold huffNgramP
    exact akeys_fromList_nodup _
  have hPmem : List.replicate n PAD ∈ akeys (huffNgramP n probs) := by
    rw [mem_akeys_huffNgramP, mem_prodLists]
    exact ⟨by simp, fun y hy =>
      (List.eq_of_mem_replicate hy) ▸ mem_akeys_huffPExt.2 (Or.inr rfl)⟩
  have hne : huffNgramP n probs ≠ [] := by
    intro he
    rw [he] at hPmem
    simp [akeys] at hPmem
  obtain ⟨hTok, hTperm, -⟩ := huffTable_spec n probs hne
  obtain ⟨-, hIA⟩ := treeFromTable_some htree
  have hlook : ∀ s, alookup s st.table = alookup s (huffTable n probs) := by
    intro s
    rw [htbl]
    exact tableFromTree_lookup_eq hTok.1 hTok.2 hIA s
  have hA : expectedCodeLength st
      = itemCost (fun g => (alookup g (huffNgramP n probs)).getD 0) st.table := by
    unfold expectedCodeLength itemCost
    rw [hngp]
  have hperm_tab : st.table.Perm (huffTable n probs) := by
    refine (List.perm_ext_iff_of_nodup ?_ ?_).2 ?_
    · rw [htbl]
      exact List.Nodup.of_map Prod.fst (akeys_fromList_nodup _)
    · exact List.Nodup.of_map Prod.fst hTok.1
    · intro a
      obtain ⟨x, c⟩ := a
      constructor
      · intro hm
        rw [htbl] at hm
        exact mem_tableFromTree_sub hIA x c hm
      · intro hm
        have hlk : alookup x (huffTable n probs) = some c :=
          mem_alookup_of_nodup hTok.1 hm
        rw [← hlook x] at hlk
        exact alookup_mem hlk
  have hB : itemCost (fun g => (alookup g (huffNgramP n probs)).getD 0) st.table
      = itemCost (fun g => (alookup g (huffNgramP n probs)).getD 0)
          (huffTable n probs) :=
    (hperm_tab.map _).sum_eq
  have hok0 := huffHeap0_heapOk (huffNgramP n probs)
  have hwok0 := huffHeap0_weightOk hnd
  have hlen1 : 1 ≤ (huffNgramP n probs).length := by
    cases hmm : huffNgramP n probs with
    | nil => exact absurd hmm hne
    | cons a rest => simp [hmm]
  have hlen0 : (huffHeap0 (huffNgramP n probs)).length = (huffNgramP n probs).length := by
    unfold huffHeap0
    simp
  have haccount := huffLoop_account
    (fun g => (alookup g (huffNgramP n probs)).getD 0) hnd
    (huffHeap0 (huffNgramP n probs)).length
    (huffHeap0 (huffNgramP n probs), (huffHeap0 (huffNgramP n probs)).length)
    hok0 hwok0 (le_refl _)
  rw [itemCostSum_heap0, zero_add] at haccount
  obtain ⟨hokF, hlenF⟩ := huffLoop_spec hnd (huffHeap0 (huffNgramP n probs)).length
    (huffHeap0 (huffNgramP n probs), (huffHeap0 (huffNgramP n probs)).length) hok0
    (by simp only []; omega) (by simp only [hlen0]; omega)
  have hC_tab : itemCost (fun g => (alookup g (huffNgramP n probs)).getD 0)
      (huffTable n probs)
      = stepsCost (huffHeap0 (huffNgramP n probs)).length
        (huffHeap0 (huffNgramP n probs), (huffHeap0 (huffNgramP n probs)).length) := by
    cases hF : (huffLoop (huffHeap0 (huffNgramP n probs)).length
        (huffHeap0 (huffNgramP n probs), (huffHeap0 (huffNgramP n probs)).length)).1 with
    | nil =>
      rw [hF] at hlenF
      simp at hlenF
    | cons i rest =>
      have hrest : rest = [] := by
        rw [hF] at hlenF
        simpa using hlenF
      subst hrest
      have htbleq : huffTable n probs = i.2.2 := by
        unfold huffTable
        rw [hF]
      rw [hF, itemCostSum_cons, show itemCostSum (fun g =>
        (alookup g (huffNgramP n probs)).getD 0) ([] : List HuffItem) = 0 from rfl,
        add_zero] at haccount
      rw [htbleq]
      exact haccount
  have hfst : (((huffNgramP n probs).map (fun e => (e.2, (C e.1).length))).map Prod.fst)
      = (huffHeap0 (huffNgramP n probs)).map (fun i => i.1) := by
    unfold huffHeap0
    rw [List.map_map, List.map_map]
    have h2 : (huffNgramP n probs).enum.map
        ((fun i : HuffItem => i.1) ∘ (fun e : Nat × (List Nat × ℚ) =>
          ((e.2.2 : ℚ), e.1, [(e.2.1, ([] : List Bool))])))
        = ((huffNgramP n probs).enum.map Prod.snd).map Prod.snd := by
      rw [List.map_map]
      rfl
    rw [h2, List.enum_map_snd]
    rfl
  have hpw : (((akeys (huffNgramP n probs)).map C).Pairwise
      (fun a b => ¬ a <+: b ∧ ¬ b <+: a)) := by
    rw [List.pairwise_map]
    refine List.Pairwise.imp_of_mem ?_ hnd
    intro a b ha hb hab
    refine ⟨hC a (by rw [hngp]; exact ha) b (by rw [hngp]; exact hb) hab,
      hC b (by rw [hngp]; exact hb) a (by rw [hngp]; exact ha) (Ne.symm hab)⟩
  have hkraft : kraftW ((huffNgramP n probs).map (fun e => (e.2, (C e.1).length))) ≤ 1 := by
    have hk1 : kraftW ((huffNgramP n probs).map (fun e => (e.2, (C e.1).length)))
        = kraftSum ((akeys (huffNgramP n probs)).map C) := by
      unfold kraftW kraftSum akeys
      rw [List.map_map, List.map_map, List.map_map]
      rfl
    rw [hk1]
    exact kraft_of_pairwise (((akeys (huffNgramP n probs)).map C).map List.length).sum
      _ (le_refl _) hpw
  have hwnn : ∀ i ∈ (huffHeap0 (huffNgramP n probs)), 0 ≤ i.1 := by
    intro i hi
    unfold huffHeap0 at hi
    obtain ⟨e, he, rfl⟩ := List.mem_map.1 hi
    have he2 : e.2 ∈ huffNgramP n probs := by
      have h1 : e.2 ∈ (huffNgramP n probs).enum.map Prod.snd := List.mem_map_of_mem _ he
      rw [List.enum_map_snd] at h1
      exact h1
    exact huffNgramP_nonneg hv e.2 he2
  have hlb := stepsCost_lb (huffHeap0 (huffNgramP n probs)).length
    (huffHeap0 (huffNgramP n probs), (huffHeap0 (huffNgramP n probs)).length)
    ((huffNgramP n probs).map (fun e => (e.2, (C e.1).length)))
    hwnn (le_refl _) hfst hkraft
  have hcost : costW ((huffNgramP n probs).map (fun e => (e.2, (C e.1).length)))
      = ((huffNgramP n probs).map (fun e => e.2 * ((C e.1).length : ℚ))).sum := by
    unfold costW
    rw [List.map_map]
    rfl
  rw [hA, hB, hC_tab, hngp]
  rw [← hcost]
  exact hlb

/-- Witness for C4 at the example coder against the competitor that assigns
`0` to the padding 1-gram and `1` to the original symbol's 1-gram. -/
theorem claim_C4_witness :
    expectedCodeLength exState
      ≤ (exState.ngramP.map (fun e =>
          e.2 * (((fun g : List Nat => if g = [0] then [false] else [true]) e.1).length
            : ℚ))).sum :=
  claim_C4 1 [(1, 1)] exState huffmanInit_example
    (fun g : List Nat => if g = [0] then [false] else [true]) (by decide)

end HuffOptimal

end CodingLab
